import Mathlib

/-!
Verification development for the `configfile` library
(`configfile/__init__.py`): a shallow embedding of its section-tree
data model, the merge/import engine, the interpolation resolver, the
line parser and the export/diff engine, together with proofs of the
behavioural properties stated in the specification.

Modelling conventions:
* Python `OrderedDict`s become association lists (`List (String × String)`
  for options, a dedicated `SubsList` for subsections); `d[k] = v`
  replaces in place when `k` is present and appends otherwise.
* Python exceptions become an explicit `PyErr` value threaded through
  `Except`.
* `str.lower` is modelled by `String.toLower`; the development only
  reasons about ASCII names, where the two functions agree.
* Whitespace (`\s` in the module's regexes) is modelled by the six ASCII
  whitespace characters recognised by Python's `re` on ASCII text.
-/

set_option maxRecDepth 10000

namespace Configfile

/-- Python's `\s` character class, restricted to ASCII. -/
def pyIsSpace (c : Char) : Bool :=
  c = ' ' || c = '\t' || c = '\n' || c = '\r' ||
    c = Char.ofNat 11 || c = Char.ofNat 12

/-- Python `str.lower`, character by character (`Char.toLower` lowers
exactly the ASCII uppercase letters). -/
def pyLower (s : String) : String :=
  ⟨s.data.map Char.toLower⟩

/-- Case folding used for name comparison: `s.lower()` when `ignore_case`
is set, the identity otherwise. -/
def foldName (ic : Bool) (s : String) : String :=
  if ic then pyLower s else s

/-- The constant settings of a configuration tree (`safe_calls`,
`inherit_options`, `subsections`, `ignore_case` from `Section.__init__`);
every node of one tree shares them, and `_import_object_subsection_create`
propagates them to freshly created children, so the embedding carries one
record for the whole tree. -/
structure Cfg where
  safe_calls : Bool
  inherit_options : Bool
  subsections : Bool
  ignore_case : Bool

/-- The merge policy triple of `_import`/`_import_object`. -/
structure Policy where
  overwrite : Bool
  add : Bool
  reset : Bool

/-- Python exceptions raised by the embedded code. -/
inductive PyErr where
  | parsingError (msg : String)
  | nameError (name : String)
  | invalidObject (msg : String)
  | keyError (key : String)
  | typeError (msg : String)
  | valueError (msg : String)
deriving DecidableEq, Repr

mutual
/-- One node of the configuration hierarchy: the ordered option map
(`self._options`) and the ordered subsection map (`self._subsections`).
The same shape serves as the "compatible object" accepted by
`_import_object` (a pair of an option mapping and a subsection mapping). -/
inductive Section where
  | mk (opts : List (String × String)) (subs : SubsList) : Section
deriving DecidableEq, Repr

/-- The ordered mapping from subsection name to subsection. -/
inductive SubsList where
  | nil : SubsList
  | cons (name : String) (sec : Section) (rest : SubsList) : SubsList
deriving DecidableEq, Repr
end

namespace Section

def opts : Section → List (String × String)
  | .mk o _ => o

def subs : Section → SubsList
  | .mk _ s => s

end Section

/-- The empty section (`_EMPTY_SECTION`). -/
def emptySection : Section := .mk [] .nil

namespace SubsList

def names : SubsList → List String
  | .nil => []
  | .cons n _ r => n :: names r

/-- Exact-key lookup, as in `d[1][s]` / `s in d[1]`. -/
def findExact : SubsList → String → Option Section
  | .nil, _ => none
  | .cons n sec r, s => if n = s then some sec else findExact r s

/-- First entry whose folded name matches; mirrors the
`for ss in self._subsections: if sec.lower() == ss.lower()` scan
(and exact lookup when folding is the identity). -/
def findFold (ic : Bool) : SubsList → String → Option (String × Section)
  | .nil, _ => none
  | .cons n sec r, s =>
      if foldName ic s = foldName ic n then some (n, sec) else findFold ic r s

/-- Exact-key dictionary assignment `d[k] = v`: replace in place if the
key is present, append otherwise. -/
def setExact : SubsList → String → Section → SubsList
  | .nil, k, v => .cons k v .nil
  | .cons n sec r, k, v =>
      if n = k then .cons n v r else .cons n sec (setExact r k v)

def append : SubsList → SubsList → SubsList
  | .nil, t => t
  | .cons n sec r, t => .cons n sec (append r t)

end SubsList

/-! ### Ordered option-map primitives -/

/-- Exact-key dictionary assignment on the option map. -/
def odSetExact : List (String × String) → String → String → List (String × String)
  | [], k, v => [(k, v)]
  | (n, w) :: r, k, v =>
      if n = k then (n, v) :: r else (n, w) :: odSetExact r k v

/-- First entry whose folded key matches the folded probe. -/
def odFindFold (ic : Bool) : List (String × String) → String → Option (String × String)
  | [], _ => none
  | (n, w) :: r, k =>
      if foldName ic k = foldName ic n then some (n, w) else odFindFold ic r k

/-- Replace the value of the first entry whose folded key matches,
keeping the stored key and its position (`self._options[o] = val`). -/
def odSetFold (ic : Bool) : List (String × String) → String → String → List (String × String)
  | [], _, _ => []
  | (n, w) :: r, k, v =>
      if foldName ic k = foldName ic n then (n, v) :: r
      else (n, w) :: odSetFold ic r k v

/-- Delete the entry with the given exact key (first occurrence). -/
def odDelExact : List (String × String) → String → List (String × String)
  | [], _ => []
  | (n, w) :: r, k => if n = k then r else (n, w) :: odDelExact r k

/-! ### Name and value grammars -/

/-- `[a-zA-Z_]`. -/
def isAl (c : Char) : Bool := c.isAlpha || c = '_'

/-- `[a-zA-Z0-9_]`. -/
def isAld (c : Char) : Bool := c.isAlphanum || c = '_'

/-- Python `$` without `re.M` matches at the end of the input and also
just before one newline at the very end: a pattern `X$` whose `X`
cannot match a newline accepts exactly the strings whose one optional
final newline, once removed, match `X`. -/
def dropFinalNl (cs : List Char) : List Char :=
  match cs.reverse with
  | '\n' :: r => r.reverse
  | _ => cs

/-- Language of `_OPTION` (and `_SECTION_PLAIN`) under `re.match`:
`^[a-zA-Z_]+[a-zA-Z0-9_]*$`, i.e. a leading letter or underscore
followed by letters, digits or underscores, optionally followed by one
final newline that the `$` anchor accepts.  The `re.I` flag used with
it is irrelevant because the class already contains both cases. -/
def optionNameOk (s : String) : Bool :=
  match dropFinalNl s.data with
  | [] => false
  | c :: cs => isAl c && cs.all isAld

/-- Tail language of `_SECTION_SUB` after its first character: every
character is `[a-zA-Z0-9_]`, except that a dot must be followed by at
least one `[a-zA-Z0-9_]` character (`(?:\.?[a-zA-Z0-9_]+)*$`). -/
def sectionSubTail : List Char → Bool
  | [] => true
  | c :: cs =>
      if c = '.' then
        match cs with
        | [] => false
        | d :: cs2 => isAld d && sectionSubTail cs2
      else isAld c && sectionSubTail cs

/-- Language of `_SECTION_SUB = ^[a-zA-Z_]+(?:\.?[a-zA-Z0-9_]+)*$`
under `re.match`: the `$` anchor also accepts one final newline. -/
def sectionSubOk (s : String) : Bool :=
  match dropFinalNl s.data with
  | [] => false
  | c :: cs => isAl c && sectionSubTail cs

/-- `self._SECTION`: the subsection grammar when subsections are enabled,
the plain grammar otherwise. -/
def sectionNameOk (cfg : Cfg) (s : String) : Bool :=
  if cfg.subsections then sectionSubOk s else optionNameOk s

/-- Language of `_VALUE = ^.*$` under Python `re.match` without
`re.M`: `.` does not match a newline and `$` also matches just before a
final newline, so a value matches iff it contains no newline except
possibly one at its very end. -/
def valueOk (s : String) : Bool :=
  match s.data.reverse with
  | [] => true
  | _ :: rest => rest.all (· ≠ '\n')

/-! ### The merge engine (`_import_object` and helpers) -/

/-- `_import_object_option`: import one option under the policy flags.
Returns the updated option map of the visited section. -/
def importObjectOption (cfg : Cfg) (overwrite add reset : Bool)
    (opts : List (String × String)) (opt val : String) :
    List (String × String) :=
  if reset then
    odSetExact opts opt val
  else if cfg.ignore_case then
    match odFindFold true opts opt with
    | some _ => if overwrite then odSetFold true opts opt val else opts
    | none => if add then opts ++ [(opt, val)] else opts
  else
    match odFindFold false opts opt with
    | some _ => if overwrite then odSetFold false opts opt val else opts
    | none => if add then opts ++ [(opt, val)] else opts

/-- The option loop of `_import_object`: validate each source option
(`_OPTION` on the name, `_VALUE` on the value) and import it in order;
an invalid entry aborts with `InvalidObjectError`. -/
def importOptions (cfg : Cfg) (overwrite add reset : Bool) :
    List (String × String) → List (String × String) →
    Except PyErr (List (String × String))
  | [], tgt => .ok tgt
  | (o, v) :: r, tgt =>
      if optionNameOk o && valueOk v then
        importOptions cfg overwrite add reset r
          (importObjectOption cfg overwrite add reset tgt o v)
      else
        .error (.invalidObject ("Invalid option or value: " ++ o ++ ": " ++ v))

mutual

/-- `_import_object`: clear the node when `reset`, then import the
source options in order, then the source subsections in order. -/
def importObject (cfg : Cfg) (pol : Policy) (src : Section) (tgt : Section) :
    Except PyErr Section :=
  match src with
  | .mk sOpts sSubs =>
    let tgt := if pol.reset then emptySection else tgt
    match importOptions cfg pol.overwrite pol.add pol.reset sOpts tgt.opts with
    | .error e => .error e
    | .ok opts' =>
      match importSubs cfg pol.overwrite pol.add pol.reset sSubs tgt.subs with
      | .error e => .error e
      | .ok subs' => .ok (.mk opts' subs')

/-- The subsection loop of `_import_object`, with
`_import_object_subsection` and `_import_object_subsection_create`
inlined (inlining keeps the recursion structural): each source
subsection name is validated against `self._SECTION`; with `reset` a
brand-new child is always created; otherwise a case-matching existing
child is merged into without re-applying `reset`, and a missing child is
created when `add` allows it.  Creation builds a new `Section` with the
parent's settings (the shared `cfg`) and imports the source subtree into
it with the policy's `overwrite`/`add` flags and `reset` off — the
`importObject ... emptySection` calls below. -/
def importSubs (cfg : Cfg) (overwrite add reset : Bool) (srcSubs : SubsList)
    (tgtSubs : SubsList) : Except PyErr SubsList :=
  match srcSubs with
  | .nil => .ok tgtSubs
  | .cons s secd rest =>
      if sectionNameOk cfg s then
        let step : Except PyErr SubsList :=
          if reset then
            match importObject cfg ⟨overwrite, add, false⟩ secd emptySection with
            | .error e => .error e
            | .ok child => .ok (tgtSubs.setExact s child)
          else
            match tgtSubs.findFold cfg.ignore_case s with
            | some (name, existing) =>
                match importObject cfg ⟨overwrite, add, false⟩ secd existing with
                | .error e => .error e
                | .ok child2 => .ok (tgtSubs.setExact name child2)
            | none =>
                if add then
                  match importObject cfg ⟨overwrite, add, false⟩ secd emptySection with
                  | .error e => .error e
                  | .ok child => .ok (tgtSubs.setExact s child)
                else .ok tgtSubs
        match step with
        | .error e => .error e
        | .ok tgtSubs2 => importSubs cfg overwrite add reset rest tgtSubs2
      else
        .error (.invalidObject ("Invalid section name: " ++ s))

end

/-- `__setitem__`: store a value, replacing a case-matching existing
option in place, otherwise appending. -/
def setitem (cfg : Cfg) (sec : Section) (opt val : String) : Section :=
  if cfg.ignore_case then
    match odFindFold true sec.opts opt with
    | some _ => .mk (odSetFold true sec.opts opt val) sec.subs
    | none => .mk (sec.opts ++ [(opt, val)]) sec.subs
  else
    .mk (odSetExact sec.opts opt val) sec.subs

/-! ### Validity and uniqueness predicates -/

/-- The keys of a list are pairwise distinct after applying `f`. -/
def distinctBy (f : String → String) : List String → Bool
  | [] => true
  | k :: r => r.all (fun k2 => f k2 != f k) && distinctBy f r

mutual
/-- A source tree is valid and case-duplicate-free throughout: every
option name matches `_OPTION`, every value matches `_VALUE`, every
subsection name matches `self._SECTION`, and at every node the option
names and the subsection names are pairwise distinct under the
configured case folding. -/
def goodTree (cfg : Cfg) : Section → Bool
  | .mk opts subs =>
      opts.all (fun kv => optionNameOk kv.1 && valueOk kv.2) &&
      distinctBy (foldName cfg.ignore_case) (opts.map (·.1)) &&
      distinctBy (foldName cfg.ignore_case) subs.names &&
      goodSubs cfg subs

def goodSubs (cfg : Cfg) : SubsList → Bool
  | .nil => true
  | .cons n sec r => sectionNameOk cfg n && goodTree cfg sec && goodSubs cfg r
end

mutual
/-- The data-model invariant of claim C5: at every node of the tree,
option names are pairwise distinct under the configured case rule, and
so are child section names. -/
def invariantDeep (cfg : Cfg) : Section → Bool
  | .mk opts subs =>
      distinctBy (foldName cfg.ignore_case) (opts.map (·.1)) &&
      distinctBy (foldName cfg.ignore_case) subs.names &&
      invariantSubs cfg subs

def invariantSubs (cfg : Cfg) : SubsList → Bool
  | .nil => true
  | .cons _ sec r => invariantDeep cfg sec && invariantSubs cfg r
end

/-- The top-level names of a source are pairwise distinct under the
configured case rule (no recursion into subtrees). -/
def topFoldDistinct (cfg : Cfg) (s : Section) : Bool :=
  distinctBy (foldName cfg.ignore_case) (s.opts.map (·.1)) &&
  distinctBy (foldName cfg.ignore_case) s.subs.names

/-! ### Mutation sequences (for the reachability claim) -/

/-- One mutation of a configuration tree: a `__setitem__` call or an
`_import_object` merge under some policy. -/
inductive Op where
  | set (opt val : String)
  | merge (pol : Policy) (src : Section)

def applyOp (cfg : Cfg) (t : Section) : Op → Except PyErr Section
  | .set k v => .ok (setitem cfg t k v)
  | .merge pol src => importObject cfg pol src t

def applyOps (cfg : Cfg) : List Op → Section → Except PyErr Section
  | [], t => .ok t
  | op :: r, t =>
      match applyOp cfg t op with
      | .error e => .error e
      | .ok t' => applyOps cfg r t'

/-- Guard for the amended claim C5: a reset-mode merge must use a source
whose top-level names are case-distinct. -/
def resetSourceOk (cfg : Cfg) : Op → Bool
  | .set _ _ => true
  | .merge pol src => !pol.reset || topFoldDistinct cfg src

/-! ### The `get` operation -/

/-- The scan of `get`: walk the sections of `slist` in order and return
the value of the first case-matching option. -/
def getFrom (cfg : Cfg) : List Section → String → Option String
  | [], _ => none
  | s :: r, opt =>
      match odFindFold cfg.ignore_case s.opts opt with
      | some (_, v) => some v
      | none => getFrom cfg r opt

/-- `Section.get` with an explicit ancestor chain (parent first, root
last) and an explicit `inherit_options` flag; a missing option yields
`none` (the `fallback=None` default). -/
def get (cfg : Cfg) (self : Section) (ancestors : List Section)
    (inherit : Bool) (opt : String) : Option String :=
  getFrom cfg (self :: (if inherit then ancestors else [])) opt

/-! ### The interpolation resolver (`_interpolate`) -/

/-- Python `sep.join(parts)`. -/
def pyJoin (sep : String) : List String → String
  | [] => ""
  | [s] => s
  | s :: rest => s ++ sep ++ pyJoin sep rest

/-- One token of the `_INTERPOLATION_SPLIT` stream: the four literal
markers `$$`, `${`, `$:`, `$}`, or one character of ordinary text
(Python's `re.split` returns text runs; processing them character by
character concatenates to the same result). -/
inductive Chunk where
  | esc | popen | psep | pclose | ch (c : Char)
deriving DecidableEq, Repr

/-- Leftmost-first scan for the four interpolation markers, mirroring
`re.split` with the alternation `$$|${|$:|$}`: a `$` followed by `$`,
`{`, `:` or `}` forms a marker, anything else is text. -/
def splitMarks : List Char → List Chunk
  | [] => []
  | c :: r =>
      if c = '$' then
        match r with
        | [] => [.ch c]
        | d :: r2 =>
          if d = '$' then .esc :: splitMarks r2
          else if d = '{' then .popen :: splitMarks r2
          else if d = ':' then .psep :: splitMarks r2
          else if d = '}' then .pclose :: splitMarks r2
          else .ch c :: .ch d :: splitMarks r2
      else .ch c :: splitMarks r

/-- Append text to the segment currently being accumulated
(`resolve[-1] += chunk`); the open path is kept in reverse order, with
the current segment at the head. -/
def appendCur : List String → String → List String
  | [], t => [t]
  | c :: r, t => (c ++ t) :: r

/-- The descent `intsection = intsection._subsections[s]` over a list of
section names: exact, case-sensitive lookups, raising `KeyError` on a
missing name.  The ancestor chain grows alongside for the final `get`. -/
def interpDescend : Section → List Section → List String →
    Except PyErr (Section × List Section)
  | sec, anc, [] => .ok (sec, anc)
  | sec, anc, s :: rest =>
      match sec.subs.findExact s with
      | some child => interpDescend child (sec :: anc) rest
      | none => .error (.keyError s)

/-- Resolution of a closed interpolation path (the `$}` handler of
`_interpolate`): pop the option name; with no remaining segment resolve
in the current section, with a leading empty segment descend from the
current section, otherwise descend from the root; finally look the
option up through `get` (a `None` result makes the `value += ...`
concatenation raise `TypeError`). -/
def resolveClosed (cfg : Cfg) (root self : Section) (anc : List Section)
    (segsRev : List String) : Except PyErr String :=
  match segsRev with
  | [] => .error (.keyError "")
  | intopt :: restRev =>
    match (match restRev.reverse with
      | [] => Except.ok (self, anc)
      | first :: rest2 =>
          if first = "" then interpDescend self anc rest2
          else interpDescend root [] (first :: rest2)) with
    | .error e => .error e
    | .ok (sec, ancs) =>
      match get cfg sec ancs cfg.inherit_options intopt with
      | some v => .ok v
      | none => .error (.typeError "can only concatenate str to str")

/-- The chunk-stream state machine of `_interpolate` for one option
value: `none` is the outside-path state, `some r` the inside-path state
with the reversed segment list `r`; reaching the end of the value inside
a path re-emits `${` and the separators literally. -/
def interpLoop (cfg : Cfg) (root self : Section) (anc : List Section) :
    List Chunk → String → Option (List String) → Except PyErr String
  | [], v, none => .ok v
  | [], v, some r => .ok (v ++ "$\x7b" ++ pyJoin "$:" r.reverse)
  | .esc :: rest, v, none => interpLoop cfg root self anc rest (v ++ "$") none
  | .popen :: rest, v, none => interpLoop cfg root self anc rest v (some [""])
  | .psep :: rest, v, none => interpLoop cfg root self anc rest (v ++ "$:") none
  | .pclose :: rest, v, none => interpLoop cfg root self anc rest (v ++ "$\x7d") none
  | .ch c :: rest, v, none => interpLoop cfg root self anc rest (v.push c) none
  | .esc :: rest, v, some r => interpLoop cfg root self anc rest v (some (appendCur r "$"))
  | .psep :: rest, v, some r => interpLoop cfg root self anc rest v (some ("" :: r))
  | .pclose :: rest, v, some r =>
      match resolveClosed cfg root self anc r with
      | .error e => .error e
      | .ok rv => interpLoop cfg root self anc rest (v ++ rv) none
  | .popen :: rest, v, some r => interpLoop cfg root self anc rest v (some (appendCur r "$\x7b"))
  | .ch c :: rest, v, some r =>
      interpLoop cfg root self anc rest v (some (appendCur r (String.singleton c)))

/-- Interpolate one option value in the environment of a current section
`self` (with ancestor chain `anc`) inside the tree `root`. -/
def interpolateValue (cfg : Cfg) (root self : Section) (anc : List Section)
    (v : String) : Except PyErr String :=
  interpLoop cfg root self anc (splitMarks v.data) "" none

/-! ### Whole-tree interpolation pass -/

/-- Exact-path lookup of a node. -/
def nodeAt : Section → List String → Option Section
  | s, [] => some s
  | s, n :: r =>
      match s.subs.findExact n with
      | some c => nodeAt c r
      | none => none

/-- The live ancestor chain of the node at `p` (parent first, root
last), rebuilt from the current tree as `_get_ancestors` walks the
parent references. -/
def ancestorsAt (root : Section) (p : List String) : List Section :=
  ((List.range p.length).map (fun i => p.take (p.length - 1 - i))).filterMap
    (nodeAt root)

mutual
/-- Replace the value of option `k` at the node with exact path `p`
(`self._options[optname] = value` through live references). -/
def setValAt : Section → List String → String → String → Section
  | .mk o su, [], k, v => .mk (odSetExact o k v) su
  | .mk o su, n :: rest, k, v => .mk o (setValAtSubs su n rest k v)

def setValAtSubs : SubsList → String → List String → String → String → SubsList
  | .nil, _, _, _, _ => .nil
  | .cons m sec r, n, rest, k, v =>
      if m = n then .cons m (setValAt sec rest k v) r
      else .cons m sec (setValAtSubs r n rest k v)
end

mutual
/-- All strict-descendant paths of a node, in the pre-order used by the
recursive `_interpolate`/`_get_descendants` walks. -/
def descPaths (pre : List String) : Section → List (List String)
  | .mk _ su => descPathsSubs pre su

def descPathsSubs (pre : List String) : SubsList → List (List String)
  | .nil => []
  | .cons n sec r =>
      (pre ++ [n]) :: (descPaths (pre ++ [n]) sec ++ descPathsSubs pre r)
end

/-- Interpolate every option of the node at path `p`, in stored order,
against the live tree (earlier updates are visible to later ones). -/
def interpAtPath (cfg : Cfg) (t : Section) (p : List String) :
    Except PyErr Section :=
  match nodeAt t p with
  | none => .ok t
  | some node =>
    (node.opts.map (·.1)).foldl
      (fun acc k =>
        match acc with
        | .error e => .error e
        | .ok t =>
          match nodeAt t p with
          | none => .ok t
          | some nd =>
            match odFindFold false nd.opts k with
            | none => .ok t
            | some (_, v) =>
              match interpolateValue cfg t nd (ancestorsAt t p) v with
              | .error e => .error e
              | .ok v' => .ok (setValAt t p k v'))
      (.ok t)

/-- `_interpolate` called on the root: process the root's options, then
every descendant in pre-order, mutating the tree as it goes. -/
def interpolateAll (cfg : Cfg) (root : Section) : Except PyErr Section :=
  ([] :: descPaths [] root).foldl
    (fun acc p =>
      match acc with
      | .error e => .error e
      | .ok t => interpAtPath cfg t p)
    (.ok root)

/-! ### The line parser (`_parse_file`) -/

/-- Python `str.strip()` on the character list of a line. -/
def stripChars (l : List Char) : List Char :=
  ((l.dropWhile pyIsSpace).reverse.dropWhile pyIsSpace).reverse

/-- `_PARSE_IGNORE = ^\s*$`: a line of whitespace only (the trailing
newline counts as whitespace). -/
def lineIsBlank (l : String) : Bool :=
  l.data.all pyIsSpace

/-- `_PARSE_COMMENT = ^\s*[#;]{1}\s*(.*?)\s*$` used as a Boolean test:
the first non-whitespace character is `#` or `;`. -/
def lineIsComment (l : String) : Bool :=
  match l.data.dropWhile pyIsSpace with
  | c :: _ => c = '#' || c = ';'
  | [] => false

/-- `_PARSE_OPTION = ^\s*([^=]+?)\s*=\s*(.*?)\s*$` with its two capture
groups.  The line must contain `=` with a non-empty prefix before the
first one; group 1 is that prefix stripped (or, when the prefix is all
whitespace, its last character, which the lazy `[^=]+?` is forced to
take); group 2 is the remainder stripped, and cannot span an interior
newline (`.` does not match a newline and `$` only accepts a final
one). -/
def matchOption (l : String) : Option (String × String) :=
  let cs := l.data
  let pre := cs.takeWhile (· ≠ '=')
  if pre.length = cs.length then none
  else if pre.isEmpty then none
  else
    let post := cs.drop (pre.length + 1)
    let v := stripChars post
    if v.any (· = '\n') then none
    else
      let keyCore := stripChars pre
      let key :=
        if keyCore.isEmpty then
          match pre.getLast? with
          | some c => [c]
          | none => []
        else keyCore
      some (⟨key⟩, ⟨v⟩)

/-- `_PARSE_SECTION = ^\s*\[(.+)\]\s*$`: after the leading whitespace a
`[`, then the greedy group up to the last `]` that is followed only by
whitespace; the group is non-empty and cannot contain a newline. -/
def matchSectionRaw (l : String) : Option String :=
  match l.data.dropWhile pyIsSpace with
  | '[' :: rest =>
    match rest.reverse.dropWhile pyIsSpace with
    | ']' :: mrev =>
      let m := mrev.reverse
      if m.isEmpty then none
      else if m.all (· ≠ '\n') then some ⟨m⟩
      else none
    | _ => none
  | _ => none

/-- Split a character list on `.`, like Python `str.split('.')`. -/
def splitDots : List Char → List (List Char)
  | [] => [[]]
  | c :: r =>
      if c = '.' then [] :: splitDots r
      else
        match splitDots r with
        | s :: ss => (c :: s) :: ss
        | [] => [[c]]

/-- `_parse_subsections`: split the header on `.` when subsections are
enabled, else take it whole (Python `str.split('.')` keeps empty
segments). -/
def parseSubsections (cfg : Cfg) (m : String) : List String :=
  if cfg.subsections then (splitDots m.data).map (fun seg => ⟨seg⟩) else [m]

/-- The header descent of `_parse_file`: walk the split names from the
root, creating missing nodes (exact-key membership test `s not in
d[1]`). -/
def parseDescend : Section → List String → Section
  | s, [] => s
  | .mk o su, n :: r =>
      match su.findExact n with
      | some c => .mk o (su.setExact n (parseDescend c r))
      | none => .mk o (su.setExact n (parseDescend emptySection r))

/-- The line loop of `_parse_file`, carrying the tree built so far and
the path of `lastsect`.  An unclassifiable line evaluates the
`ParsingError` message first, which reads the name `cfile` — undefined
in `_parse_file` — so Python raises `NameError: name 'cfile' is not
defined` instead. -/
def parseLinesAux (cfg : Cfg) : List String → Section → List String →
    Except PyErr Section
  | [], t, _ => .ok t
  | l :: ls, t, cur =>
      if lineIsBlank l then parseLinesAux cfg ls t cur
      else if lineIsComment l then parseLinesAux cfg ls t cur
      else
        match matchOption l with
        | some (k, v) => parseLinesAux cfg ls (setValAt t cur k v) cur
        | none =>
          match matchSectionRaw l with
          | some m =>
              let names := parseSubsections cfg m
              parseLinesAux cfg ls (parseDescend t names) names
          | none => .error (.nameError "cfile")

/-- `_parse_file` over the list of lines of the stream. -/
def parseFile (cfg : Cfg) (lines : List String) : Except PyErr Section :=
  parseLinesAux cfg lines emptySection []

/-! ### The export/diff engine (`_export_file`) -/

/-- The leading-blank-line exclusion at the top of `_export_file`:
drop every initial line matching `_PARSE_IGNORE`; a file of blank lines
only becomes empty. -/
def dropLeadingBlanks (lines : List String) : List String :=
  lines.dropWhile lineIsBlank

/-- `get_options(inherit_options=False)`: a copy of the own options,
first occurrence winning (`d.setdefault`). -/
def dedupAux (seen : List String) : List (String × String) →
    List (String × String)
  | [] => []
  | (k, v) :: r =>
      if seen.contains k then dedupAux seen r
      else (k, v) :: dedupAux (k :: seen) r

def getOptionsCopy (s : Section) : List (String × String) :=
  dedupAux [] s.opts

/-- The mutable scan state of `_export_file`: the stream contents so
far, the read-only flag, `remaining_options`, `remaining_descendants`
(as exact paths from the root) and the `other_lines` buffer. -/
structure ExpState where
  out : String
  readonly : Bool
  remOpts : List (String × String)
  remDesc : List (List String)
  others : List String

/-- `_export_other_lines`: restore the buffered unrecognised lines
unless a reset applies in a live region; always clear the buffer. -/
def flushOthers (st : ExpState) (reset : Bool) : ExpState :=
  if st.readonly || !reset then
    { st with out := st.out ++ String.join st.others, others := [] }
  else
    { st with others := [] }

/-- `_export_other_lines_before_existing_section`: as above, but when
the buffer is dropped a separating newline is written if the stream is
non-empty. -/
def flushOthersBeforeSection (st : ExpState) (reset : Bool) : ExpState :=
  if st.readonly || !reset then
    { st with out := st.out ++ String.join st.others, others := [] }
  else if st.out ≠ "" then
    { st with out := st.out ++ "\n", others := [] }
  else
    { st with others := [] }

/-- `_export_file_remaining_options`: append the options of the live
section not yet matched (call sites guard this with `add`). -/
def writeRemainingOptions (st : ExpState) : ExpState :=
  if st.readonly then st
  else
    { st with out := st.out ++
        String.join (st.remOpts.map (fun kv => kv.1 ++ " = " ++ kv.2 ++ "\n")) }

/-- `_export_file_existing_option`: match the file's option line against
`remaining_options` (first case-matching entry), rewrite it if the value
changed and `overwrite` allows, echo it otherwise; an unmatched line is
echoed unless `reset` drops it. -/
def exportExistingOption (cfg : Cfg) (pol : Policy) (st : ExpState)
    (line fk fv : String) : ExpState :=
  if st.readonly then { st with out := st.out ++ line }
  else
    match odFindFold cfg.ignore_case st.remOpts fk with
    | some (storedKey, storedVal) =>
        let emitted :=
          if pol.overwrite && fv != storedVal then
            fk ++ " = " ++ storedVal ++ "\n"
          else line
        { st with out := st.out ++ emitted,
                  remOpts := odDelExact st.remOpts storedKey }
    | none =>
        if !pol.reset then { st with out := st.out ++ line } else st

/-- One step of `__call__` with no `safe` argument, as used by
`_export_file_existing_section`: a case-matching child, else the section
itself when `safe_calls` is set, else `KeyError`. -/
def callOne (cfg : Cfg) (root : Section) (p : List String) (name : String) :
    Except PyErr (List String) :=
  match nodeAt root p with
  | none => .error (.keyError ("Section not found: " ++ name))
  | some n =>
    match n.subs.findFold cfg.ignore_case name with
    | some (stored, _) => .ok (p ++ [stored])
    | none =>
        if cfg.safe_calls then .ok p
        else .error (.keyError ("Section not found: " ++ name))

/-- The per-segment descent of a header's split names. -/
def resolveNames (cfg : Cfg) (root : Section) :
    List String → List String → Except PyErr (List String)
  | start, [] => .ok start
  | start, n :: r =>
      match callOne cfg root start n with
      | .error e => .error e
      | .ok p => resolveNames cfg root p r

/-- `_export_file_existing_section`: resolve the header against the root
(full path mode) or the base section; a resolved section below the base
becomes live and is removed from `remaining_descendants` (`list.remove`
raises `ValueError` if absent); otherwise the region becomes
read-only.  The header line itself is echoed. -/
def exportExistingSection (cfg : Cfg) (pol : Policy) (path : Bool)
    (root : Section) (basePath : List String) (st : ExpState)
    (line m : String) : Except PyErr ExpState :=
  let st1 := if pol.add then writeRemainingOptions st else st
  let st2 := flushOthersBeforeSection st1 pol.reset
  let names := parseSubsections cfg m
  let start := if path then [] else basePath
  match resolveNames cfg root start names with
  | .error _ =>
      .ok { st2 with readonly := true, remOpts := [], out := st2.out ++ line }
  | .ok p =>
      if basePath.isPrefixOf p then
        if st2.remDesc.contains p then
          .ok { st2 with
                  readonly := false
                  remOpts := getOptionsCopy ((nodeAt root p).getD emptySection)
                  remDesc := st2.remDesc.erase p
                  out := st2.out ++ line }
        else .error (.valueError "list.remove(x): x not in list")
      else
        .ok { st2 with readonly := true, remOpts := [], out := st2.out ++ line }

/-- One line of the export scan: the option test first, then the section
test, everything else buffered in `other_lines`. -/
def exportStep (cfg : Cfg) (pol : Policy) (path : Bool) (root : Section)
    (basePath : List String) (st : ExpState) (line : String) :
    Except PyErr ExpState :=
  match matchOption line with
  | some (fk, fv) =>
      .ok (exportExistingOption cfg pol (flushOthers st pol.reset) line fk fv)
  | none =>
    match matchSectionRaw line with
    | some m => exportExistingSection cfg pol path root basePath st line m
    | none => .ok { st with others := st.others ++ [line] }

def exportLoop (cfg : Cfg) (pol : Policy) (path : Bool) (root : Section)
    (basePath : List String) : List String → ExpState →
    Except PyErr ExpState
  | [], st => .ok st
  | l :: ls, st =>
      match exportStep cfg pol path root basePath st l with
      | .error e => .error e
      | .ok st' => exportLoop cfg pol path root basePath ls st'

/-- The header names written for a remaining section: the section name
preceded by its ancestors' names, stopping below the base section when
`path` is off (and always excluding the unnamed root). -/
def headerNamesFor (path : Bool) (basePath p : List String) : List String :=
  if !path && !basePath.isEmpty && basePath.isPrefixOf p && basePath ≠ p then
    p.drop basePath.length
  else p

/-- `_export_file_remaining_sections`: append every remaining descendant
that still has options, each preceded by its dotted header and a
separating blank line (none at the very start of the file).  Option
values are read back through `__getitem__`. -/
def exportRemainingSections (cfg : Cfg) (path : Bool) (root : Section)
    (basePath : List String) (st : ExpState) : String :=
  (st.remDesc.foldl
    (fun (acc : String × String) p =>
      match nodeAt root p with
      | none => acc
      | some n =>
        if n.opts.length > 0 then
          let names := headerNamesFor path basePath p
          let body := String.join (n.opts.map (fun kv =>
            kv.1 ++ " = " ++
              ((get cfg n (ancestorsAt root p) cfg.inherit_options kv.1).getD "")
              ++ "\n"))
          (acc.1 ++ acc.2 ++ "[" ++ pyJoin "." names ++ "]\n" ++
            body, "\n")
        else acc)
    (st.out, if st.out ≠ "" then "\n" else "")).1

/-- The initial scan state: the base section's options and descendants;
a non-root base exported with full paths starts read-only and includes
itself among the remaining descendants. -/
def exportInit (path : Bool) (root : Section) (basePath : List String) :
    ExpState :=
  if basePath.isEmpty then
    { out := "", readonly := false, remOpts := getOptionsCopy root,
      remDesc := descPaths [] root, others := [] }
  else
    let base := (nodeAt root basePath).getD emptySection
    if path then
      { out := "", readonly := true, remOpts := getOptionsCopy base,
        remDesc := basePath :: descPaths basePath base, others := [] }
    else
      { out := "", readonly := false, remOpts := getOptionsCopy base,
        remDesc := descPaths basePath base, others := [] }

/-- The tail of `_export_file` after the line scan: flush the last live
section's options, restore trailing unrecognised lines, then append the
remaining sections. -/
def exportFinish (cfg : Cfg) (pol : Policy) (path : Bool) (root : Section)
    (basePath : List String) (st : ExpState) : String :=
  let st1 := if pol.add then writeRemainingOptions st else st
  let st2 := flushOthers st1 pol.reset
  if pol.add then exportRemainingSections cfg path root basePath st2
  else st2.out

/-- `_export_file`: read the pre-existing lines, exclude the leading
blank ones, scan them against the tree, and finish. -/
def exportFile (cfg : Cfg) (pol : Policy) (path : Bool) (root : Section)
    (basePath : List String) (lines : List String) : Except PyErr String :=
  match exportLoop cfg pol path root basePath (dropLeadingBlanks lines)
      (exportInit path root basePath) with
  | .error e => .error e
  | .ok st => .ok (exportFinish cfg pol path root basePath st)

/-- The round trip of claim C1: parse the lines into a fresh tree
(a `ConfigFile` built with default upgrade mode), then export it with
`export_upgrade` over the same lines. -/
def roundTrip (cfg : Cfg) (lines : List String) : Except PyErr String :=
  match parseFile cfg lines with
  | .error e => .error e
  | .ok pt =>
    match importObject cfg ⟨true, true, false⟩ pt emptySection with
    | .error e => .error e
    | .ok t => exportFile cfg ⟨true, true, false⟩ true t [] lines

/-! ### Grammars for claim C6 -/

/-- One identifier: `[A-Za-z_][A-Za-z0-9_]*`. -/
def identOk : List Char → Bool
  | [] => false
  | c :: cs => isAl c && cs.all isAld

/-- The grammar stated by the claim: every dot-separated segment,
including segments after the first, is an identifier. -/
def specSectionGrammar (s : String) : Bool :=
  (splitDots s.data).all identOk

/-- The amended grammar actually recognised by `_SECTION_SUB`: after
removing the one final newline that Python's `$` tolerates, the first
segment is an identifier and later segments are non-empty but may begin
with a digit. -/
def amendedSectionGrammar (s : String) : Bool :=
  match splitDots (dropFinalNl s.data) with
  | [] => false
  | seg0 :: rest =>
      identOk seg0 && rest.all (fun seg => !seg.isEmpty && seg.all isAld)

/-! ### The resolution rule of claim C7, stated as the claim words it -/

/-- Descend through section segments and fetch the option through
`get`. -/
def specLookup (cfg : Cfg) (startSec : Section) (startAnc : List Section)
    (secs : List String) (opt : String) : Except PyErr String :=
  match interpDescend startSec startAnc secs with
  | .error e => .error e
  | .ok (sec, ancs) =>
    match get cfg sec ancs cfg.inherit_options opt with
    | some v => .ok v
    | none => .error (.typeError "can only concatenate str to str")

/-- Claim C7's resolution rule over the in-order segment list: one
segment resolves in the current section; a leading empty segment
descends from the current section through the remaining segments; any
other multi-segment path descends from the root through all segments,
the last being the option name. -/
def resolveRuleSpec (cfg : Cfg) (root self : Section) (anc : List Section) :
    List String → Except PyErr String
  | [] => .error (.keyError "")
  | [opt] => specLookup cfg self anc [] opt
  | first :: r1 :: rest2 =>
      if first = "" then
        specLookup cfg self anc ((r1 :: rest2).dropLast) ((r1 :: rest2).getLastD "")
      else
        specLookup cfg root [] ((first :: r1 :: rest2).dropLast)
          ((first :: r1 :: rest2).getLastD "")

/-- The literal text of a closed interpolation path. -/
def pathText (segs : List String) : String :=
  "$\x7b" ++ pyJoin "$:" segs ++ "$\x7d"

/-- A string without the interpolation special character. -/
def dollarFree (s : String) : Bool :=
  s.data.all (· ≠ '$')

/-! ### The classification and region structure of a parsed file
(claim C1) -/

/-- How one input line is treated, following the test order shared by
`_parse_file` (ignore, comment, option, section) — a `bad` line is the
one that raises. -/
inductive LKind where
  | blank | comment | opt (k v : String) | sect (m : String) | bad
deriving DecidableEq, Repr

def classify (l : String) : LKind :=
  if lineIsBlank l then .blank
  else if lineIsComment l then .comment
  else
    match matchOption l with
    | some (k, v) => .opt k v
    | none =>
      match matchSectionRaw l with
      | some m => .sect m
      | none => .bad

/-- The pure line loop of `_parse_file` (bad lines skipped; the run is
related to `parseLinesAux` only on inputs where none occurs). -/
def parseGo (cfg : Cfg) : List String → Section → List String → Section
  | [], t, _ => t
  | l :: ls, t, cur =>
      match classify l with
      | .opt k v => parseGo cfg ls (setValAt t cur k v) cur
      | .sect m =>
          parseGo cfg ls (parseDescend t (parseSubsections cfg m))
            (parseSubsections cfg m)
      | _ => parseGo cfg ls t cur

/-- The current-section path after processing a run of lines. -/
def lastCur (cfg : Cfg) : List String → List String → List String
  | [], cur => cur
  | l :: ls, cur =>
      match classify l with
      | .sect m => lastCur cfg ls (parseSubsections cfg m)
      | _ => lastCur cfg ls cur

/-- The option assignments of the current region: the `(key, value)`
pairs of the option lines before the next section header. -/
def regionAssoc : List String → List (String × String)
  | [] => []
  | l :: ls =>
      match classify l with
      | .opt k v => (k, v) :: regionAssoc ls
      | .sect _ => []
      | _ => regionAssoc ls

/-- The section paths named by the headers of a run of lines, in
order. -/
def headerPaths (cfg : Cfg) : List String → List (List String)
  | [] => []
  | l :: ls =>
      match classify l with
      | .sect m => parseSubsections cfg m :: headerPaths cfg ls
      | _ => headerPaths cfg ls

/-- Keys pairwise distinct and fresh relative to the accumulator. -/
def keysFresh : List String → List (String × String) → Bool
  | _, [] => true
  | ks, (k, _) :: r => !ks.contains k && keysFresh (k :: ks) r

/-- Every region's option keys are pairwise distinct (exact
comparison), tracked with an accumulator that resets at each header. -/
def regionsOKAux : List String → List String → Bool
  | _, [] => true
  | ks, l :: ls =>
      match classify l with
      | .opt k _ => !ks.contains k && regionsOKAux (k :: ks) ls
      | .sect _ => regionsOKAux [] ls
      | _ => regionsOKAux ks ls

def regionsOK (lines : List String) : Bool := regionsOKAux [] lines

/-- No comment line that the export scan reads as an assignment
(`_PARSE_OPTION` matches it) names a key that case-matches a
still-unconsumed option of its region. -/
def noCommentCollide (ic : Bool) : List String → Bool
  | [] => true
  | l :: ls =>
      (match classify l with
       | .comment =>
           match matchOption l with
           | some (fk, _) =>
               (regionAssoc ls).all
                 (fun kv => foldName ic fk != foldName ic kv.1)
           | none => true
       | _ => true) && noCommentCollide ic ls

/-- The file does not begin with a whitespace-only line. -/
def leadOK : List String → Bool
  | [] => true
  | l :: _ => !lineIsBlank l

/-- The option map of the node at an exact path, when it exists. -/
def optsAt (t : Section) (p : List String) : Option (List (String × String)) :=
  (nodeAt t p).map Section.opts

/-- A region's assignments applied to an option map by exact dictionary
assignment, in order. -/
def applyRegion (o : List (String × String)) (pairs : List (String × String)) :
    List (String × String) :=
  pairs.foldl (fun acc kv => odSetExact acc kv.1 kv.2) o

/-- Well-formedness of a file for the amended round-trip claim, judged
against the tree `t` it parses to: the tree is valid and
case-duplicate-free, the file has no leading blank line, no two headers
name the same section path, each region's keys are pairwise distinct,
and no comment line poses as an assignment to a live key of its
region. -/
def wfRoundTrip (cfg : Cfg) (lines : List String) (t : Section) : Prop :=
  goodTree cfg t = true ∧ leadOK lines = true ∧
  (headerPaths cfg lines).Nodup ∧ regionsOK lines = true ∧
  noCommentCollide cfg.ignore_case lines = true

end Configfile


/-!
## Theorems

Helper lemmas about the ordered-map primitives, then the claims.
-/

namespace Configfile

@[simp]
theorem Section.opts_mk (o : List (String × String)) (s : SubsList) :
    (Section.mk o s).opts = o := rfl

@[simp]
theorem Section.subs_mk (o : List (String × String)) (s : SubsList) :
    (Section.mk o s).subs = s := rfl

@[simp]
theorem SubsList.names_nil : SubsList.nil.names = [] := rfl

@[simp]
theorem SubsList.names_cons (n : String) (sec : Section) (r : SubsList) :
    (SubsList.cons n sec r).names = n :: r.names := rfl

theorem SubsList.append_nil : ∀ (a : SubsList), a.append .nil = a
  | .nil => rfl
  | .cons n sec r => by rw [SubsList.append, SubsList.append_nil r]

@[simp]
theorem SubsList.nil_append (a : SubsList) : SubsList.nil.append a = a := rfl

@[simp]
theorem SubsList.cons_append (n : String) (sec : Section) (r a : SubsList) :
    (SubsList.cons n sec r).append a = .cons n sec (r.append a) := rfl

theorem SubsList.append_assoc : ∀ (a b c : SubsList),
    (a.append b).append c = a.append (b.append c)
  | .nil, _, _ => rfl
  | .cons n sec r, b, c => by
      simp [SubsList.append_assoc r b c]

theorem SubsList.names_append : ∀ (a b : SubsList),
    (a.append b).names = a.names ++ b.names
  | .nil, _ => rfl
  | .cons n sec r, b => by simp [SubsList.names_append r b]

theorem distinctBy_cons {f : String → String} {k : String} {r : List String} :
    distinctBy f (k :: r) = true ↔
      (∀ k2 ∈ r, f k2 ≠ f k) ∧ distinctBy f r = true := by
  simp [distinctBy]

theorem odFindFold_eq_none {ic : Bool} {k : String} :
    ∀ {l : List (String × String)},
    odFindFold ic l k = none ↔ ∀ p ∈ l, foldName ic k ≠ foldName ic p.1 := by
  intro l
  induction l with
  | nil => simp [odFindFold]
  | cons p r ih =>
      obtain ⟨n, w⟩ := p
      by_cases h : foldName ic k = foldName ic n
      · simp [odFindFold, h]
      · simp [odFindFold, h, ih]

theorem odSetExact_of_not_mem {k : String} {v : String} :
    ∀ {l : List (String × String)}, (∀ p ∈ l, p.1 ≠ k) →
    odSetExact l k v = l ++ [(k, v)] := by
  intro l
  induction l with
  | nil => simp [odSetExact]
  | cons p r ih =>
      obtain ⟨n, w⟩ := p
      intro h
      have hn : n ≠ k := h (n, w) (by simp)
      simp only [odSetExact, if_neg hn, List.cons_append, List.cons.injEq,
        true_and]
      exact ih (fun p hp => h p (by simp [hp]))

theorem findFold_eq_none {ic : Bool} {s : String} :
    ∀ (l : SubsList),
    l.findFold ic s = none ↔ ∀ n ∈ l.names, foldName ic s ≠ foldName ic n
  | .nil => by simp [SubsList.findFold]
  | .cons n sec r => by
      by_cases h : foldName ic s = foldName ic n
      · simp [SubsList.findFold, h]
      · simp [SubsList.findFold, h, findFold_eq_none r]

theorem setExact_of_not_mem {k : String} {v : Section} :
    ∀ (l : SubsList), (∀ n ∈ l.names, n ≠ k) →
    l.setExact k v = l.append (.cons k v .nil)
  | .nil, _ => rfl
  | .cons n sec r, h => by
      have hn : n ≠ k := h n (by simp)
      simp only [SubsList.setExact, if_neg hn, SubsList.cons_append,
        SubsList.cons.injEq, true_and]
      exact setExact_of_not_mem r (fun m hm => h m (by simp [hm]))

/-! ### Copying a valid source into an empty section -/

theorem importOptions_nil (cfg : Cfg) (ov ad rst : Bool)
    (t : List (String × String)) :
    importOptions cfg ov ad rst [] t = .ok t := rfl

/-- The non-reset branch of `_import_object_option`, with the two
case-sensitivity branches unified over `cfg.ignore_case`. -/
theorem importObjectOption_nonreset (cfg : Cfg) (ov ad : Bool)
    (opts : List (String × String)) (o v : String) :
    importObjectOption cfg ov ad false opts o v =
      match odFindFold cfg.ignore_case opts o with
      | some _ => if ov then odSetFold cfg.ignore_case opts o v else opts
      | none => if ad then opts ++ [(o, v)] else opts := by
  cases hic : cfg.ignore_case <;>
    simp [importObjectOption, hic]

theorem importOptions_append_good (cfg : Cfg) (ov : Bool) :
    ∀ (os acc : List (String × String)),
    os.all (fun kv => optionNameOk kv.1 && valueOk kv.2) = true →
    distinctBy (foldName cfg.ignore_case) (os.map (·.1)) = true →
    (∀ kv ∈ os, odFindFold cfg.ignore_case acc kv.1 = none) →
    importOptions cfg ov true false os acc = .ok (acc ++ os)
  | [], acc, _, _, _ => by simp [importOptions]
  | (o, v) :: r, acc, hval, hdist, hacc => by
      simp only [List.all_cons, Bool.and_eq_true] at hval
      have hdist' := (distinctBy_cons (f := foldName cfg.ignore_case)
        (k := o) (r := r.map (·.1))).mp (by simpa using hdist)
      have hacc' : ∀ kv ∈ r, odFindFold cfg.ignore_case (acc ++ [(o, v)]) kv.1 = none := by
        intro kv hkv
        rw [odFindFold_eq_none]
        intro p hp
        rcases List.mem_append.mp hp with hpa | hpo
        · exact (odFindFold_eq_none.mp (hacc kv (by simp [hkv]))) p hpa
        · have : p = (o, v) := by simpa using hpo
          subst this
          exact hdist'.1 kv.1 (List.mem_map_of_mem _ hkv)
      rw [importOptions, if_pos (by simp [hval.1])]
      simp only [importObjectOption_nonreset, hacc (o, v) (by simp),
        eq_self_iff_true, if_true,
        importOptions_append_good cfg ov r (acc ++ [(o, v)]) hval.2 hdist'.2 hacc',
        List.append_assoc, List.singleton_append]

mutual

theorem importObject_into_empty (cfg : Cfg) (ov : Bool) :
    ∀ (src : Section), goodTree cfg src = true →
    importObject cfg ⟨ov, true, false⟩ src emptySection = .ok src
  | .mk o su, h => by
      rw [goodTree] at h
      simp only [Bool.and_eq_true] at h
      rw [importObject]
      simp only [Bool.false_eq_true, if_false, emptySection,
        Section.opts_mk, Section.subs_mk,
        importOptions_append_good cfg ov o [] h.1.1.1 h.1.1.2 (fun kv _ => rfl),
        importSubs_append_good cfg ov su .nil h.2 h.1.2 (fun n _ => rfl),
        List.nil_append, SubsList.nil_append]

theorem importSubs_append_good (cfg : Cfg) (ov : Bool) :
    ∀ (ss acc : SubsList),
    goodSubs cfg ss = true →
    distinctBy (foldName cfg.ignore_case) ss.names = true →
    (∀ n ∈ ss.names, acc.findFold cfg.ignore_case n = none) →
    importSubs cfg ov true false ss acc = .ok (acc.append ss)
  | .nil, acc, _, _, _ => by simp [importSubs, SubsList.append_nil]
  | .cons s secd rest, acc, hgood, hdist, hacc => by
      rw [goodSubs] at hgood
      simp only [Bool.and_eq_true] at hgood
      obtain ⟨⟨hname, hsecd⟩, hrest⟩ := hgood
      have hdist' := (distinctBy_cons (f := foldName cfg.ignore_case)
        (k := s) (r := rest.names)).mp (by simpa using hdist)
      have hne : ∀ n ∈ acc.names, n ≠ s := by
        intro n hn he
        exact (findFold_eq_none acc).mp (hacc s (by simp)) n hn (by rw [he])
      have hacc' : ∀ n ∈ rest.names,
          (acc.append (.cons s secd .nil)).findFold cfg.ignore_case n = none := by
        intro n hn
        rw [findFold_eq_none]
        intro m hm
        rw [SubsList.names_append] at hm
        rcases List.mem_append.mp hm with hma | hms
        · exact (findFold_eq_none acc).mp (hacc n (by simp [hn])) m hma
        · have : m = s := by simpa using hms
          subst this
          exact hdist'.1 n hn
      rw [importSubs, if_pos hname]
      simp only [Bool.false_eq_true, if_false,
        hacc s (by simp), eq_self_iff_true, if_true,
        importObject_into_empty cfg ov secd hsecd,
        setExact_of_not_mem acc hne,
        importSubs_append_good cfg ov rest (acc.append (.cons s secd .nil))
          hrest hdist'.2 hacc',
        SubsList.append_assoc, SubsList.cons_append, SubsList.nil_append]

end

/-! ### Reset-mode merges (claim C2) -/

theorem importOptions_reset_append (cfg : Cfg) (ov ad : Bool) :
    ∀ (os acc : List (String × String)),
    os.all (fun kv => optionNameOk kv.1 && valueOk kv.2) = true →
    distinctBy (foldName cfg.ignore_case) (os.map (·.1)) = true →
    (∀ kv ∈ os, ∀ p ∈ acc, p.1 ≠ kv.1) →
    importOptions cfg ov ad true os acc = .ok (acc ++ os)
  | [], acc, _, _, _ => by simp [importOptions]
  | (o, v) :: r, acc, hval, hdist, hacc => by
      simp only [List.all_cons, Bool.and_eq_true] at hval
      have hdist' := (distinctBy_cons (f := foldName cfg.ignore_case)
        (k := o) (r := r.map (·.1))).mp (by simpa using hdist)
      have hacc' : ∀ kv ∈ r, ∀ p ∈ acc ++ [(o, v)], p.1 ≠ kv.1 := by
        intro kv hkv p hp
        rcases List.mem_append.mp hp with hpa | hpo
        · exact hacc kv (by simp [hkv]) p hpa
        · have : p = (o, v) := by simpa using hpo
          subst this
          intro he
          exact hdist'.1 kv.1 (List.mem_map_of_mem _ hkv) (by rw [← he])
      rw [importOptions, if_pos (by simp [hval.1])]
      simp only [importObjectOption, eq_self_iff_true, if_true,
        odSetExact_of_not_mem (fun p hp => hacc (o, v) (by simp) p hp),
        importOptions_reset_append cfg ov ad r (acc ++ [(o, v)])
          hval.2 hdist'.2 hacc',
        List.append_assoc, List.singleton_append]

theorem importSubs_reset_append (cfg : Cfg) (ov : Bool) :
    ∀ (ss acc : SubsList),
    goodSubs cfg ss = true →
    distinctBy (foldName cfg.ignore_case) ss.names = true →
    (∀ n ∈ ss.names, ∀ m ∈ acc.names, m ≠ n) →
    importSubs cfg ov true true ss acc = .ok (acc.append ss)
  | .nil, acc, _, _, _ => by simp [importSubs, SubsList.append_nil]
  | .cons s secd rest, acc, hgood, hdist, hacc => by
      rw [goodSubs] at hgood
      simp only [Bool.and_eq_true] at hgood
      obtain ⟨⟨hname, hsecd⟩, hrest⟩ := hgood
      have hdist' := (distinctBy_cons (f := foldName cfg.ignore_case)
        (k := s) (r := rest.names)).mp (by simpa using hdist)
      have hacc' : ∀ n ∈ rest.names,
          ∀ m ∈ (acc.append (.cons s secd .nil)).names, m ≠ n := by
        intro n hn m hm
        rw [SubsList.names_append] at hm
        rcases List.mem_append.mp hm with hma | hms
        · exact hacc n (by simp [hn]) m hma
        · have : m = s := by simpa using hms
          subst this
          intro he
          exact hdist'.1 n hn (by rw [he])
      rw [importSubs, if_pos hname]
      simp only [eq_self_iff_true, if_true,
        importObject_into_empty cfg ov secd hsecd,
        setExact_of_not_mem acc (fun m hm => hacc s (by simp) m hm),
        importSubs_reset_append cfg ov rest (acc.append (.cons s secd .nil))
          hrest hdist'.2 hacc',
        SubsList.append_assoc, SubsList.cons_append, SubsList.nil_append]

/-- Claim C2: a reset-mode merge (`overwrite=true, add=true, reset=true`)
of a valid source tree `I` into any pre-existing tree `P` leaves the
target holding exactly the options and subsections of `I`: everything of
`P` absent from `I` is removed. -/
theorem c2_reset_merge (cfg : Cfg) (P I : Section)
    (h : goodTree cfg I = true) :
    importObject cfg ⟨true, true, true⟩ I P = .ok I := by
  obtain ⟨o, su⟩ := I
  rw [goodTree] at h
  simp only [Bool.and_eq_true] at h
  rw [importObject]
  simp only [eq_self_iff_true, if_true, emptySection,
    Section.opts_mk, Section.subs_mk,
    importOptions_reset_append cfg true true o [] h.1.1.1 h.1.1.2
      (fun kv _ p hp => absurd hp (List.not_mem_nil p)),
    importSubs_reset_append cfg true su .nil h.2 h.1.2
      (fun n _ m hm => absurd hm (by simp)),
    List.nil_append, SubsList.nil_append]

/-- Witness for C2: the spec scenario `{A:1, B:{C:2}}` reset-merged with
`{A:9, D:3}` yields exactly `{A:9, D:3}`, with `B` and its child `C`
gone. -/
theorem c2_witness :
    importObject ⟨false, false, true, true⟩ ⟨true, true, true⟩
      (.mk [("A", "9"), ("D", "3")] .nil)
      (.mk [("A", "1")] (.cons "B" (.mk [("C", "2")] .nil) .nil)) =
      .ok (.mk [("A", "9"), ("D", "3")] .nil) :=
  c2_reset_merge ⟨false, false, true, true⟩
    (.mk [("A", "1")] (.cons "B" (.mk [("C", "2")] .nil) .nil))
    (.mk [("A", "9"), ("D", "3")] .nil) (by decide)

/-! ### Preservation of the case-uniqueness invariant (claim C5) -/

theorem foldName_false (s : String) : foldName false s = s := rfl

theorem distinctBy_iff_pairwise {f : String → String} :
    ∀ {l : List String},
    distinctBy f l = true ↔ l.Pairwise (fun a b => f a ≠ f b) := by
  intro l
  induction l with
  | nil => simp [distinctBy]
  | cons k r ih =>
      rw [distinctBy_cons, List.pairwise_cons]
      constructor
      · rintro ⟨h1, h2⟩
        exact ⟨fun b hb => (h1 b hb).symm, ih.mp h2⟩
      · rintro ⟨h1, h2⟩
        exact ⟨fun k2 hk => (h1 k2 hk).symm, ih.mpr h2⟩

theorem distinctBy_append_single {f : String → String} {l : List String}
    {o : String} (hd : distinctBy f l = true) (hno : ∀ a ∈ l, f a ≠ f o) :
    distinctBy f (l ++ [o]) = true := by
  rw [distinctBy_iff_pairwise] at hd ⊢
  rw [List.pairwise_append]
  refine ⟨hd, by simp, ?_⟩
  intro a ha b hb
  simp only [List.mem_singleton] at hb
  subst hb
  exact hno a ha

theorem odSetFold_keys (ic : Bool) :
    ∀ (l : List (String × String)) (k v : String),
    (odSetFold ic l k v).map (·.1) = l.map (·.1)
  | [], _, _ => rfl
  | (n, w) :: r, k, v => by
      by_cases h : foldName ic k = foldName ic n <;>
        simp [odSetFold, h, odSetFold_keys ic r k v]

theorem odSetExact_keys :
    ∀ (l : List (String × String)) (k v : String),
    (odSetExact l k v).map (·.1) =
      if k ∈ l.map (·.1) then l.map (·.1) else l.map (·.1) ++ [k]
  | [], k, v => by simp [odSetExact]
  | (n, w) :: r, k, v => by
      by_cases h : n = k
      · subst h
        simp [odSetExact]
      · simp only [odSetExact, if_neg h, List.map_cons, List.mem_cons]
        rw [odSetExact_keys r k v]
        by_cases hm : k ∈ r.map (·.1)
        · simp [hm, Ne.symm h]
        · simp [hm, Ne.symm h]

theorem importObjectOption_reset (cfg : Cfg) (ov ad : Bool)
    (t : List (String × String)) (o v : String) :
    importObjectOption cfg ov ad true t o v = odSetExact t o v := by
  simp [importObjectOption]

theorem importObjectOption_keys_distinct (cfg : Cfg) (ov ad : Bool)
    (t : List (String × String)) (o v : String)
    (h : distinctBy (foldName cfg.ignore_case) (t.map (·.1)) = true) :
    distinctBy (foldName cfg.ignore_case)
      ((importObjectOption cfg ov ad false t o v).map (·.1)) = true := by
  rw [importObjectOption_nonreset]
  cases hf : odFindFold cfg.ignore_case t o with
  | some p => by_cases hov : ov <;> simp [hov, odSetFold_keys, h]
  | none =>
      by_cases had : ad
      · simp only [had, if_true, List.map_append, List.map_cons, List.map_nil]
        refine distinctBy_append_single h ?_
        intro a ha
        obtain ⟨p, hp, rfl⟩ := List.mem_map.mp ha
        exact fun he => odFindFold_eq_none.mp hf p hp he.symm
      · simp [had, h]

theorem importOptions_ok_distinct (cfg : Cfg) (ov ad : Bool) :
    ∀ (os t t' : List (String × String)),
    importOptions cfg ov ad false os t = .ok t' →
    distinctBy (foldName cfg.ignore_case) (t.map (·.1)) = true →
    distinctBy (foldName cfg.ignore_case) (t'.map (·.1)) = true
  | [], t, t', h, hd => by
      rw [importOptions_nil] at h
      injection h with h
      subst h
      exact hd
  | (o, v) :: r, t, t', h, hd => by
      rw [importOptions] at h
      by_cases hval : (optionNameOk o && valueOk v) = true
      · rw [if_pos hval] at h
        exact importOptions_ok_distinct cfg ov ad r _ t' h
          (importObjectOption_keys_distinct cfg ov ad t o v hd)
      · rw [if_neg hval] at h
        exact Except.noConfusion h

theorem findFold_some_mem {ic : Bool} {s n : String} {sec : Section} :
    ∀ (l : SubsList), l.findFold ic s = some (n, sec) → n ∈ l.names
  | .nil, h => by simp [SubsList.findFold] at h
  | .cons m sc r, h => by
      by_cases hf : foldName ic s = foldName ic m
      · simp only [SubsList.findFold, if_pos hf, Option.some.injEq,
          Prod.mk.injEq] at h
        simp [← h.1]
      · rw [SubsList.findFold, if_neg hf] at h
        simp [findFold_some_mem r h]

theorem invariantSubs_find {cfg : Cfg} {ic : Bool} {s n : String}
    {sec : Section} :
    ∀ (l : SubsList), invariantSubs cfg l = true →
    l.findFold ic s = some (n, sec) → invariantDeep cfg sec = true
  | .nil, _, h => by simp [SubsList.findFold] at h
  | .cons m sc r, hinv, h => by
      rw [invariantSubs] at hinv
      simp only [Bool.and_eq_true] at hinv
      by_cases hf : foldName ic s = foldName ic m
      · simp only [SubsList.findFold, if_pos hf, Option.some.injEq,
          Prod.mk.injEq] at h
        rw [← h.2]
        exact hinv.1
      · rw [SubsList.findFold, if_neg hf] at h
        exact invariantSubs_find r hinv.2 h

theorem setExact_names_of_mem {n : String} {v : Section} :
    ∀ (l : SubsList), n ∈ l.names → (l.setExact n v).names = l.names
  | .nil, h => by simp at h
  | .cons m sc r, h => by
      by_cases hm : m = n
      · rw [SubsList.setExact, if_pos hm]
        simp
      · rw [SubsList.setExact, if_neg hm]
        simp only [SubsList.names_cons] at h ⊢
        rcases List.mem_cons.mp h with h | h
        · exact absurd h.symm hm
        · rw [setExact_names_of_mem r h]

theorem invariantSubs_setExact {cfg : Cfg} {n : String} {v : Section} :
    ∀ (l : SubsList), invariantSubs cfg l = true →
    invariantDeep cfg v = true → invariantSubs cfg (l.setExact n v) = true
  | .nil, _, hv => by simp [SubsList.setExact, invariantSubs, hv]
  | .cons m sc r, hinv, hv => by
      rw [invariantSubs] at hinv
      simp only [Bool.and_eq_true] at hinv
      by_cases hm : m = n <;>
        simp [SubsList.setExact, hm, invariantSubs, hv, hinv.1, hinv.2,
          invariantSubs_setExact r hinv.2 hv]

theorem invariantSubs_append {cfg : Cfg} :
    ∀ (a b : SubsList), invariantSubs cfg a = true →
    invariantSubs cfg b = true → invariantSubs cfg (a.append b) = true
  | .nil, b, _, hb => hb
  | .cons n sc r, b, ha, hb => by
      rw [invariantSubs] at ha
      simp only [Bool.and_eq_true] at ha
      simp [invariantSubs, ha.1, invariantSubs_append r b ha.2 hb]

mutual

theorem importObject_inv (cfg : Cfg) :
    ∀ (src : Section) (ov ad : Bool) (tgt t' : Section),
    importObject cfg ⟨ov, ad, false⟩ src tgt = .ok t' →
    invariantDeep cfg tgt = true → invariantDeep cfg t' = true
  | .mk o su, ov, ad, .mk to2 tsu, t', h, hinv => by
      rw [importObject] at h
      simp only [Bool.false_eq_true, if_false, Section.opts_mk,
        Section.subs_mk] at h
      rw [invariantDeep] at hinv
      simp only [Bool.and_eq_true, Section.opts_mk, Section.subs_mk] at hinv
      cases hopt : importOptions cfg ov ad false o to2 with
      | error e => rw [hopt] at h; exact Except.noConfusion h
      | ok opts2 =>
        cases hsub : importSubs cfg ov ad false su tsu with
        | error e =>
            simp only [hopt, hsub] at h
            exact Except.noConfusion h
        | ok subs2 =>
          simp only [hopt, hsub, Except.ok.injEq] at h
          subst h
          have hs := importSubs_inv cfg su ov ad tsu subs2 hsub hinv.1.2 hinv.2
          rw [invariantDeep]
          simp only [Bool.and_eq_true]
          exact ⟨⟨importOptions_ok_distinct cfg ov ad o to2 opts2 hopt
            hinv.1.1, hs.1⟩, hs.2⟩

theorem importSubs_inv (cfg : Cfg) :
    ∀ (ss : SubsList) (ov ad : Bool) (ts ts' : SubsList),
    importSubs cfg ov ad false ss ts = .ok ts' →
    distinctBy (foldName cfg.ignore_case) ts.names = true →
    invariantSubs cfg ts = true →
    distinctBy (foldName cfg.ignore_case) ts'.names = true ∧
      invariantSubs cfg ts' = true
  | .nil, ov, ad, ts, ts', h, hd, hi => by
      rw [importSubs] at h
      injection h with h
      subst h
      exact ⟨hd, hi⟩
  | .cons s secd rest, ov, ad, ts, ts', h, hd, hi => by
      rw [importSubs] at h
      by_cases hname : sectionNameOk cfg s = true
      · rw [if_pos hname] at h
        simp only [Bool.false_eq_true, if_false] at h
        cases hf : ts.findFold cfg.ignore_case s with
        | some p =>
            obtain ⟨name, existing⟩ := p
            cases hio : importObject cfg ⟨ov, ad, false⟩ secd existing with
            | error e =>
                simp only [hf, hio] at h
                exact Except.noConfusion h
            | ok child2 =>
                simp only [hf, hio] at h
                have hmem := findFold_some_mem ts hf
                have hchild := importObject_inv cfg secd ov ad existing child2
                  hio (invariantSubs_find ts hi hf)
                exact importSubs_inv cfg rest ov ad _ ts' h
                  (by rw [setExact_names_of_mem ts hmem]; exact hd)
                  (invariantSubs_setExact ts hi hchild)
        | none =>
            by_cases had : ad = true
            · subst had
              simp only [hf, eq_self_iff_true, if_true] at h
              cases hio : importObject cfg ⟨ov, true, false⟩ secd emptySection with
              | error e =>
                  simp only [hio] at h
                  exact Except.noConfusion h
              | ok child =>
                  simp only [hio] at h
                  have hne : ∀ n ∈ ts.names, n ≠ s := fun n hn he =>
                    (findFold_eq_none ts).mp hf n hn (by rw [he])
                  rw [setExact_of_not_mem ts hne] at h
                  have hchild := importObject_inv cfg secd ov true emptySection
                    child hio rfl
                  refine importSubs_inv cfg rest ov true _ ts' h ?_ ?_
                  · rw [SubsList.names_append, SubsList.names_cons,
                      SubsList.names_nil]
                    refine distinctBy_append_single hd ?_
                    intro a ha he
                    exact (findFold_eq_none ts).mp hf a ha he.symm
                  · exact invariantSubs_append ts _ hi
                      (by simp [invariantSubs, hchild])
            · have had2 : ad = false := by simpa using had
              subst had2
              simp only [hf, Bool.false_eq_true, if_false] at h
              exact importSubs_inv cfg rest ov false ts ts' h hd hi
      · rw [if_neg hname] at h
        exact Except.noConfusion h

end

theorem importOptions_reset_inv (cfg : Cfg) (ov ad : Bool) :
    ∀ (os t t' : List (String × String)),
    importOptions cfg ov ad true os t = .ok t' →
    distinctBy (foldName cfg.ignore_case) (t.map (·.1) ++ os.map (·.1)) = true →
    distinctBy (foldName cfg.ignore_case) (t'.map (·.1)) = true
  | [], t, t', h, hd => by
      rw [importOptions_nil] at h
      injection h with h
      subst h
      simpa using hd
  | (o, v) :: r, t, t', h, hd => by
      rw [importOptions] at h
      by_cases hval : (optionNameOk o && valueOk v) = true
      · rw [if_pos hval] at h
        have hpair := distinctBy_iff_pairwise.mp hd
        rw [List.pairwise_append] at hpair
        have hKnotin : ∀ p ∈ t, p.1 ≠ o := by
          intro p hp he
          exact hpair.2.2 p.1 (List.mem_map_of_mem _ hp) o (by simp) (by rw [he])
        rw [importObjectOption_reset, odSetExact_of_not_mem hKnotin] at h
        refine importOptions_reset_inv cfg ov ad r _ t' h ?_
        simpa [List.append_assoc] using hd
      · rw [if_neg hval] at h
        exact Except.noConfusion h

theorem importSubs_reset_inv (cfg : Cfg) (ov ad : Bool) :
    ∀ (ss ts ts' : SubsList),
    importSubs cfg ov ad true ss ts = .ok ts' →
    distinctBy (foldName cfg.ignore_case) (ts.names ++ ss.names) = true →
    invariantSubs cfg ts = true →
    distinctBy (foldName cfg.ignore_case) ts'.names = true ∧
      invariantSubs cfg ts' = true
  | .nil, ts, ts', h, hd, hi => by
      rw [importSubs] at h
      injection h with h
      subst h
      exact ⟨by simpa using hd, hi⟩
  | .cons s secd rest, ts, ts', h, hd, hi => by
      rw [importSubs] at h
      by_cases hname : sectionNameOk cfg s = true
      · rw [if_pos hname] at h
        simp only [eq_self_iff_true, if_true] at h
        cases hio : importObject cfg ⟨ov, ad, false⟩ secd emptySection with
        | error e =>
            simp only [hio] at h
            exact Except.noConfusion h
        | ok child =>
            simp only [hio] at h
            have hpair := distinctBy_iff_pairwise.mp hd
            rw [List.pairwise_append] at hpair
            have hne : ∀ n ∈ ts.names, n ≠ s := by
              intro n hn he
              exact hpair.2.2 n hn s (by simp) (by rw [he])
            rw [setExact_of_not_mem ts hne] at h
            have hchild := importObject_inv cfg secd ov ad emptySection child
              hio rfl
            refine importSubs_reset_inv cfg ov ad rest _ ts' h ?_ ?_
            · rw [SubsList.names_append, SubsList.names_cons, SubsList.names_nil]
              simpa [List.append_assoc] using hd
            · exact invariantSubs_append ts _ hi (by simp [invariantSubs, hchild])
      · rw [if_neg hname] at h
        exact Except.noConfusion h

theorem importObject_reset_inv (cfg : Cfg) (ov ad : Bool)
    (src tgt t' : Section)
    (h : importObject cfg ⟨ov, ad, true⟩ src tgt = .ok t')
    (htop : topFoldDistinct cfg src = true) : invariantDeep cfg t' = true := by
  obtain ⟨o, su⟩ := src
  rw [importObject] at h
  simp only [eq_self_iff_true, if_true, emptySection, Section.opts_mk,
    Section.subs_mk] at h
  rw [topFoldDistinct] at htop
  simp only [Bool.and_eq_true, Section.opts_mk, Section.subs_mk] at htop
  cases hopt : importOptions cfg ov ad true o [] with
  | error e => rw [hopt] at h; exact Except.noConfusion h
  | ok opts2 =>
    cases hsub : importSubs cfg ov ad true su .nil with
    | error e =>
        simp only [hopt, hsub] at h
        exact Except.noConfusion h
    | ok subs2 =>
      simp only [hopt, hsub, Except.ok.injEq] at h
      subst h
      have hs := importSubs_reset_inv cfg ov ad su .nil subs2 hsub
        (by simpa using htop.2) rfl
      rw [invariantDeep]
      simp only [Bool.and_eq_true]
      exact ⟨⟨importOptions_reset_inv cfg ov ad o [] opts2 hopt
        (by simpa using htop.1), hs.1⟩, hs.2⟩

theorem setitem_inv (cfg : Cfg) (t : Section) (k v : String)
    (h : invariantDeep cfg t = true) :
    invariantDeep cfg (setitem cfg t k v) = true := by
  obtain ⟨o, su⟩ := t
  rw [invariantDeep] at h
  simp only [Bool.and_eq_true, Section.opts_mk, Section.subs_mk] at h
  rw [setitem]
  by_cases hic : cfg.ignore_case
  · rw [if_pos hic]
    rw [hic] at h
    simp only [Section.opts_mk, Section.subs_mk]
    cases hf : odFindFold true o k with
    | some p =>
        rw [invariantDeep]
        simp only [Bool.and_eq_true, Section.opts_mk, Section.subs_mk, hic]
        rw [odSetFold_keys]
        exact ⟨⟨h.1.1, h.1.2⟩, h.2⟩
    | none =>
        rw [invariantDeep]
        simp only [Bool.and_eq_true, Section.opts_mk, Section.subs_mk, hic,
          List.map_append, List.map_cons, List.map_nil]
        refine ⟨⟨distinctBy_append_single h.1.1 ?_, h.1.2⟩, h.2⟩
        intro a ha
        obtain ⟨p, hp, rfl⟩ := List.mem_map.mp ha
        exact fun he => odFindFold_eq_none.mp hf p hp he.symm
  · rw [if_neg hic]
    have hic2 : cfg.ignore_case = false := by simpa using hic
    rw [hic2] at h
    rw [invariantDeep]
    simp only [Bool.and_eq_true, Section.opts_mk, Section.subs_mk, hic2]
    rw [odSetExact_keys]
    by_cases hm : k ∈ o.map (·.1)
    · simp only [hm, if_true]
      exact ⟨⟨h.1.1, h.1.2⟩, h.2⟩
    · simp only [hm, if_false]
      refine ⟨⟨distinctBy_append_single h.1.1 ?_, h.1.2⟩, h.2⟩
      intro a ha
      simp only [foldName_false]
      exact fun he => hm (he ▸ ha)

theorem applyOps_inv (cfg : Cfg) :
    ∀ (ops : List Op) (t0 t : Section),
    invariantDeep cfg t0 = true →
    (∀ op ∈ ops, resetSourceOk cfg op = true) →
    applyOps cfg ops t0 = .ok t → invariantDeep cfg t = true
  | [], t0, t, h0, _, h => by
      rw [applyOps] at h
      injection h with h
      subst h
      exact h0
  | op :: r, t0, t, h0, hops, h => by
      rw [applyOps] at h
      cases hap : applyOp cfg t0 op with
      | error e =>
          simp only [hap] at h
          exact Except.noConfusion h
      | ok t1 =>
          simp only [hap] at h
          refine applyOps_inv cfg r t1 t ?_ (fun o ho => hops o (by simp [ho])) h
          cases op with
          | set k v =>
              rw [applyOp] at hap
              injection hap with hap
              rw [← hap]
              exact setitem_inv cfg t0 k v h0
          | merge pol src =>
              rw [applyOp] at hap
              obtain ⟨ov, ad, rst⟩ := pol
              cases rst
              · exact importObject_inv cfg src ov ad t0 t1 hap h0
              · have htop : topFoldDistinct cfg src = true := by
                  have hh := hops (Op.merge ⟨ov, ad, true⟩ src)
                    (List.mem_cons_self _ _)
                  simpa [resetSourceOk] using hh
                exact importObject_reset_inv cfg ov ad src t0 t1 hap htop

/-- Claim C5 (amended): after any sequence of `__setitem__` calls and
successful merges starting from a fresh tree, option names and child
section names are unique under the configured case rule in every
reachable Section — provided every reset-mode merge uses a source whose
own top-level names are case-distinct (the reset fast path stores source
keys verbatim, skipping the case check). -/
theorem c5_invariant_amended (cfg : Cfg) (ops : List Op) (t : Section)
    (hops : ∀ op ∈ ops, resetSourceOk cfg op = true)
    (h : applyOps cfg ops emptySection = .ok t) :
    invariantDeep cfg t = true :=
  applyOps_inv cfg ops emptySection t rfl hops h

/-- Counterexample to claim C5 as stated: with `ignore_case = true`, a
single reset-mode merge of the source `{A: 1, a: 2}` into a fresh tree
succeeds and leaves two options whose names differ only in case, so the
claimed uniqueness invariant fails on a reachable tree. -/
theorem c5_counterexample :
    applyOps ⟨false, false, true, true⟩
      [.merge ⟨true, true, true⟩ (.mk [("A", "1"), ("a", "2")] .nil)]
      emptySection = .ok (.mk [("A", "1"), ("a", "2")] .nil) ∧
    invariantDeep ⟨false, false, true, true⟩
      (.mk [("A", "1"), ("a", "2")] .nil) = false :=
  ⟨rfl, rfl⟩

/-- Witness for C5: a concrete sequence of a merge, a `__setitem__` and a
reset merge with case-distinct source names keeps the invariant. -/
theorem c5_witness :
    invariantDeep ⟨false, false, true, true⟩
      (.mk [("B", "3")] (.cons "S" (.mk [] .nil) .nil)) = true :=
  c5_invariant_amended ⟨false, false, true, true⟩
    [.merge ⟨true, true, false⟩ (.mk [("A", "1")] .nil),
     .set "a" "2",
     .merge ⟨true, true, true⟩ (.mk [("B", "3")] (.cons "S" (.mk [] .nil) .nil))]
    (.mk [("B", "3")] (.cons "S" (.mk [] .nil) .nil))
    (by decide) rfl

/-! ### Creation of missing subsections during a merge (claim C4) -/

/-- Claim C4 (amended): when a source subsection has no case-matching
child in the target and `add` is enabled, a brand-new child Section is
created (with the parent's settings, the shared `cfg`) and the source
subtree is merged into it with the *outer* policy's `overwrite` and
`add` flags; because the child starts empty, for any case-distinct valid
source subtree the result is the full copy `secd` — the same tree an
`overwrite=true, add=true` merge into a fresh section produces — whatever
the outer `overwrite` flag was. -/
theorem c4_create_amended (cfg : Cfg) (ov : Bool) (s : String)
    (secd tgt : Section)
    (hname : sectionNameOk cfg s = true)
    (hmiss : tgt.subs.findFold cfg.ignore_case s = none)
    (hgood : goodTree cfg secd = true) :
    importObject cfg ⟨ov, true, false⟩ (.mk [] (.cons s secd .nil)) tgt =
      .ok (.mk tgt.opts (tgt.subs.append (.cons s secd .nil))) ∧
    importObject cfg ⟨true, true, false⟩ secd emptySection = .ok secd := by
  refine ⟨?_, importObject_into_empty cfg true secd hgood⟩
  obtain ⟨to2, tsu⟩ := tgt
  simp only [Section.opts_mk, Section.subs_mk] at hmiss ⊢
  rw [importObject]
  simp only [Bool.false_eq_true, if_false, Section.opts_mk, Section.subs_mk,
    importOptions_nil]
  rw [importSubs, if_pos hname]
  have hne : ∀ n ∈ tsu.names, n ≠ s := fun n hn he =>
    (findFold_eq_none tsu).mp hmiss n hn (by rw [he])
  simp only [Bool.false_eq_true, if_false, hmiss, if_true,
    importObject_into_empty cfg ov secd hgood,
    setExact_of_not_mem tsu hne, importSubs]

/-- Counterexample to claim C4 as stated: under the `add` policy
(`overwrite=false`), merging `{S: {A:1, a:2}}` into a fresh tree with
`ignore_case=true` creates child `S` as `{A:1}`, whereas the claimed
`overwrite=true, add=true` merge of the subtree into a fresh section
gives `{A:2}` — the outer `overwrite` flag does reach the new child. -/
theorem c4_counterexample :
    importObject ⟨false, false, true, true⟩ ⟨false, true, false⟩
      (.mk [] (.cons "S" (.mk [("A", "1"), ("a", "2")] .nil) .nil))
      emptySection =
      .ok (.mk [] (.cons "S" (.mk [("A", "1")] .nil) .nil)) ∧
    importObject ⟨false, false, true, true⟩ ⟨true, true, false⟩
      (.mk [("A", "1"), ("a", "2")] .nil) emptySection =
      .ok (.mk [("A", "2")] .nil) ∧
    (Section.mk [("A", "1")] .nil) ≠ (Section.mk [("A", "2")] .nil) :=
  ⟨rfl, rfl, by decide⟩

/-- Witness for C4: a concrete missing child created during an
`overwrite=false` merge, fully populated with the source subtree. -/
theorem c4_witness :
    importObject ⟨false, false, true, true⟩ ⟨false, true, false⟩
      (.mk [] (.cons "S" (.mk [("x", "1")] .nil) .nil))
      (.mk [("r", "0")] .nil) =
      .ok (.mk [("r", "0")] (.cons "S" (.mk [("x", "1")] .nil) .nil)) ∧
    importObject ⟨false, false, true, true⟩ ⟨true, true, false⟩
      (.mk [("x", "1")] .nil) emptySection = .ok (.mk [("x", "1")] .nil) :=
  c4_create_amended ⟨false, false, true, true⟩ false "S"
    (.mk [("x", "1")] .nil) (.mk [("r", "0")] .nil) rfl rfl rfl

/-! ### The section-name grammar (claim C6) -/

theorem splitDots_cons (c : Char) (r : List Char) :
    splitDots (c :: r) =
      (if c = '.' then [] :: splitDots r
      else
        match splitDots r with
        | s :: ss => (c :: s) :: ss
        | [] => [[c]]) := by
  by_cases hc : c = '.' <;> cases h : splitDots r <;> simp [splitDots, hc, h]

theorem sectionSubTail_cons (c : Char) (cs : List Char) :
    sectionSubTail (c :: cs) =
      (if c = '.' then
        match cs with
        | [] => false
        | d :: cs2 => isAld d && sectionSubTail cs2
      else isAld c && sectionSubTail cs) := by
  cases cs <;> by_cases hc : c = '.' <;> simp [sectionSubTail, hc]

theorem splitDots_ne_nil : ∀ (cs : List Char), splitDots cs ≠ []
  | [] => by simp [splitDots]
  | c :: r => by
      rw [splitDots_cons]
      by_cases hc : c = '.'
      · simp [hc]
      · rw [if_neg hc]
        cases h : splitDots r with
        | nil => simp
        | cons s ss => simp

theorem sectionSubTail_eq : ∀ (cs : List Char),
    sectionSubTail cs =
      match splitDots cs with
      | [] => false
      | seg0 :: rest =>
          seg0.all isAld && rest.all (fun seg => !seg.isEmpty && seg.all isAld)
  | [] => by simp [sectionSubTail, splitDots]
  | c :: cs => by
      rw [sectionSubTail_cons, splitDots_cons]
      by_cases hc : c = '.'
      · rw [if_pos hc, if_pos hc]
        cases cs with
        | nil => simp [splitDots]
        | cons d cs2 =>
            simp only [List.all_nil, Bool.true_and]
            by_cases hd : d = '.'
            · subst hd
              rw [splitDots_cons, if_pos rfl]
              simp [show isAld '.' = false from rfl]
            · rw [splitDots_cons, if_neg hd]
              cases hsp : splitDots cs2 with
              | nil => exact absurd hsp (splitDots_ne_nil cs2)
              | cons s ss =>
                  have ih := sectionSubTail_eq cs2
                  rw [hsp] at ih
                  rw [ih]
                  simp [List.all_cons, Bool.and_assoc]
      · rw [if_neg hc, if_neg hc]
        cases hsp : splitDots cs with
        | nil => exact absurd hsp (splitDots_ne_nil cs)
        | cons s ss =>
            have ih := sectionSubTail_eq cs
            rw [hsp] at ih
            rw [ih]
            simp [List.all_cons, Bool.and_assoc]

/-- The language of `_SECTION_SUB`, re-expressed segment-wise: it is the
claim's `identifier(.identifier)*` grammar weakened so that segments
after the first may begin with a digit. -/
theorem sectionSubOk_eq_amended (s : String) :
    sectionSubOk s = amendedSectionGrammar s := by
  cases hs : dropFinalNl s.data with
  | nil => simp [sectionSubOk, amendedSectionGrammar, hs, splitDots, identOk]
  | cons c cs =>
      simp only [sectionSubOk, amendedSectionGrammar, hs]
      rw [splitDots_cons]
      by_cases hc : c = '.'
      · subst hc
        simp [show isAl '.' = false from rfl, identOk]
      · rw [if_neg hc]
        cases hsp : splitDots cs with
        | nil => exact absurd hsp (splitDots_ne_nil cs)
        | cons s0 ss =>
            have ht := sectionSubTail_eq cs
            rw [hsp] at ht
            rw [ht]
            simp [identOk, Bool.and_assoc]

/-- Claim C6 (amended): with subsections enabled, a section name offered
to a merge is accepted iff, after removing the one final newline that
Python's `$` anchor tolerates, its first dot-separated segment matches
`[A-Za-z_][A-Za-z0-9_]*` and every later segment is a non-empty run of
`[A-Za-z0-9_]` (it may begin with a digit, which `identifier(.identifier)*`
would reject); a name outside this grammar makes the merge fail with an
`InvalidObjectError` naming the offending key. -/
theorem c6_section_grammar_amended (cfg : Cfg) (s : String)
    (h : cfg.subsections = true) :
    sectionNameOk cfg s = amendedSectionGrammar s ∧
    importObject cfg ⟨true, true, false⟩ (.mk [] (.cons s emptySection .nil))
        emptySection =
      (if amendedSectionGrammar s then
        .ok (.mk [] (.cons s emptySection .nil))
       else .error (.invalidObject ("Invalid section name: " ++ s))) := by
  have hgram : sectionNameOk cfg s = amendedSectionGrammar s := by
    rw [sectionNameOk, if_pos h, sectionSubOk_eq_amended]
  refine ⟨hgram, ?_⟩
  rw [importObject]
  simp only [Bool.false_eq_true, if_false, emptySection, Section.opts_mk,
    Section.subs_mk, importOptions_nil]
  rw [importSubs, hgram]
  by_cases hg : amendedSectionGrammar s = true
  · rw [if_pos hg, if_pos hg]
    rfl
  · have hg2 : amendedSectionGrammar s = false := by simpa using hg
    simp only [hg2, Bool.false_eq_true, if_false]

/-- Counterexample to claim C6 as stated: the name `a.1` is outside
`identifier(.identifier)*` (its second segment begins with a digit) and
so is `a.b` followed by a newline (Python's `$` accepts the final
newline), yet `_SECTION_SUB` accepts both and the merge succeeds
instead of failing with an `InvalidObjectError`. -/
theorem c6_counterexample :
    specSectionGrammar "a.1" = false ∧
    importObject ⟨false, false, true, true⟩ ⟨true, true, false⟩
      (.mk [] (.cons "a.1" emptySection .nil)) emptySection =
      .ok (.mk [] (.cons "a.1" emptySection .nil)) ∧
    specSectionGrammar "a.b\n" = false ∧
    importObject ⟨false, false, true, true⟩ ⟨true, true, false⟩
      (.mk [] (.cons "a.b\n" emptySection .nil)) emptySection =
      .ok (.mk [] (.cons "a.b\n" emptySection .nil)) :=
  ⟨rfl, rfl, rfl, rfl⟩

/-- Witness for C6 at the concrete name `a.b` plus a trailing newline,
which the amended grammar accepts. -/
theorem c6_witness :
    sectionNameOk ⟨false, false, true, true⟩ "a.b\n" =
      amendedSectionGrammar "a.b\n" ∧
    importObject ⟨false, false, true, true⟩ ⟨true, true, false⟩
      (.mk [] (.cons "a.b\n" emptySection .nil)) emptySection =
      (if amendedSectionGrammar "a.b\n" then
        .ok (.mk [] (.cons "a.b\n" emptySection .nil))
       else .error (.invalidObject ("Invalid section name: " ++ "a.b\n"))) :=
  c6_section_grammar_amended ⟨false, false, true, true⟩ "a.b\n" rfl

/-! ### String and scanner lemmas for the interpolation resolver -/

theorem string_data_append (a b : String) : (a ++ b).data = a.data ++ b.data := by
  cases a
  cases b
  rfl

theorem string_ext {a b : String} (h : a.data = b.data) : a = b := by
  cases a
  cases b
  exact congrArg String.mk (by simpa using h)

theorem string_append_assoc (a b c : String) : a ++ b ++ c = a ++ (b ++ c) :=
  string_ext (by simp [string_data_append])

theorem string_empty_append (a : String) : "" ++ a = a :=
  string_ext (by simp [string_data_append, show ("" : String).data = [] from rfl])

theorem string_append_empty (a : String) : a ++ "" = a :=
  string_ext (by simp [string_data_append, show ("" : String).data = [] from rfl])

theorem string_mk_append (x y : List Char) :
    (String.mk x ++ String.mk y) = String.mk (x ++ y) := rfl

theorem string_push_eq (v : String) (c : Char) :
    v.push c = v ++ String.mk [c] := by
  cases v
  rfl

theorem string_mk_nil : String.mk [] = "" := rfl

theorem string_mk_data (s : String) : String.mk s.data = s := by
  cases s
  rfl

theorem string_push_append (v : String) (c : Char) (a2 : List Char) :
    (v.push c) ++ String.mk a2 = v ++ String.mk (c :: a2) :=
  string_ext (by
    cases v
    simp [string_data_append, String.push])

theorem string_singleton_append (x : String) (c : Char) (a2 : List Char) :
    (x ++ String.singleton c) ++ String.mk a2 = x ++ String.mk (c :: a2) :=
  string_ext (by simp [string_data_append, String.singleton])

theorem exceptMap_map {ε α β γ : Type} (e : Except ε α) (f : α → β) (g : β → γ) :
    (e.map f).map g = e.map (fun x => g (f x)) := by
  cases e <;> rfl

theorem splitMarks_cons_ne {c : Char} (hc : c ≠ '$') (r : List Char) :
    splitMarks (c :: r) = .ch c :: splitMarks r := by
  cases r <;> simp [splitMarks, hc]

theorem splitMarks_esc (r : List Char) :
    splitMarks ('$' :: '$' :: r) = .esc :: splitMarks r := by
  simp [splitMarks]

theorem splitMarks_popen (r : List Char) :
    splitMarks ('$' :: '{' :: r) = .popen :: splitMarks r := by
  simp [splitMarks]

theorem splitMarks_psep (r : List Char) :
    splitMarks ('$' :: ':' :: r) = .psep :: splitMarks r := by
  simp [splitMarks]

theorem splitMarks_pclose (r : List Char) :
    splitMarks ('$' :: '}' :: r) = .pclose :: splitMarks r := by
  simp [splitMarks]

theorem splitMarks_append_chs :
    ∀ (a b : List Char), (∀ c ∈ a, c ≠ '$') →
    splitMarks (a ++ b) = a.map Chunk.ch ++ splitMarks b
  | [], b, _ => by simp
  | c :: a2, b, h => by
      rw [List.cons_append, splitMarks_cons_ne (h c (by simp)),
        splitMarks_append_chs a2 b (fun x hx => h x (by simp [hx]))]
      simp

theorem dollarFree_chars {s : String} (h : dollarFree s = true) :
    ∀ c ∈ s.data, c ≠ '$' := by
  rw [dollarFree, List.all_eq_true] at h
  intro c hc
  simpa using h c hc

theorem interpLoop_chs_none (cfg : Cfg) (root self : Section)
    (anc : List Section) :
    ∀ (a : List Char) (rest : List Chunk) (v : String),
    interpLoop cfg root self anc (a.map Chunk.ch ++ rest) v none =
      interpLoop cfg root self anc rest (v ++ String.mk a) none
  | [], rest, v => by
      rw [string_mk_nil, string_append_empty]
      simp
  | c :: a2, rest, v => by
      have step :
          interpLoop cfg root self anc (Chunk.ch c :: (a2.map Chunk.ch ++ rest))
              v none =
            interpLoop cfg root self anc (a2.map Chunk.ch ++ rest) (v.push c)
              none := rfl
      rw [List.map_cons, List.cons_append, step,
        interpLoop_chs_none cfg root self anc a2 rest (v.push c),
        string_push_append]

theorem interpLoop_chs_some (cfg : Cfg) (root self : Section)
    (anc : List Section) :
    ∀ (a : List Char) (rest : List Chunk) (v x : String) (rr : List String),
    interpLoop cfg root self anc (a.map Chunk.ch ++ rest) v (some (x :: rr)) =
      interpLoop cfg root self anc rest v (some ((x ++ String.mk a) :: rr))
  | [], rest, v, x, rr => by
      rw [string_mk_nil, string_append_empty]
      simp
  | c :: a2, rest, v, x, rr => by
      have step :
          interpLoop cfg root self anc (Chunk.ch c :: (a2.map Chunk.ch ++ rest))
              v (some (x :: rr)) =
            interpLoop cfg root self anc (a2.map Chunk.ch ++ rest) v
              (some ((x ++ String.singleton c) :: rr)) := rfl
      rw [List.map_cons, List.cons_append, step,
        interpLoop_chs_some cfg root self anc a2 rest v (x ++ String.singleton c) rr,
        string_singleton_append]

theorem pyJoin_cons2 (sep s t : String) (r : List String) :
    pyJoin sep (s :: t :: r) = s ++ sep ++ pyJoin sep (t :: r) := rfl

theorem interpLoop_join_segs (cfg : Cfg) (root self : Section)
    (anc : List Section) :
    ∀ (rest : List String) (s x : String) (rr : List String)
      (tail : List Char) (v : String),
    dollarFree s = true → (∀ t ∈ rest, dollarFree t = true) →
    interpLoop cfg root self anc
        (splitMarks ((pyJoin "$:" (s :: rest)).data ++ tail)) v
        (some (x :: rr)) =
      interpLoop cfg root self anc (splitMarks tail) v
        (some (rest.reverse ++ (x ++ s) :: rr))
  | [], s, x, rr, tail, v, hs, _ => by
      have h1 : (pyJoin "$:" [s]) = s := rfl
      rw [h1, splitMarks_append_chs s.data tail (dollarFree_chars hs),
        interpLoop_chs_some cfg root self anc s.data (splitMarks tail) v x rr,
        string_mk_data]
      simp
  | t :: rest2, s, x, rr, tail, v, hs, hrest => by
      have hdata : (pyJoin "$:" (s :: t :: rest2)).data ++ tail =
          s.data ++ ('$' :: ':' :: ((pyJoin "$:" (t :: rest2)).data ++ tail)) := by
        rw [pyJoin_cons2, string_data_append, string_data_append]
        simp [show ("$:" : String).data = ['$', ':'] from rfl]
      rw [hdata,
        splitMarks_append_chs s.data _ (dollarFree_chars hs),
        interpLoop_chs_some cfg root self anc s.data _ v x rr,
        splitMarks_psep]
      have step :
          interpLoop cfg root self anc
              (Chunk.psep :: splitMarks ((pyJoin "$:" (t :: rest2)).data ++ tail))
              v (some ((x ++ String.mk s.data) :: rr)) =
            interpLoop cfg root self anc
              (splitMarks ((pyJoin "$:" (t :: rest2)).data ++ tail)) v
              (some ("" :: (x ++ String.mk s.data) :: rr)) := rfl
      rw [step,
        interpLoop_join_segs cfg root self anc rest2 t ""
          ((x ++ String.mk s.data) :: rr) tail v (hrest t (by simp))
          (fun u hu => hrest u (by simp [hu])),
        string_empty_append, string_mk_data]
      simp

theorem interpLoop_addValue (cfg : Cfg) (root self : Section)
    (anc : List Section) :
    ∀ (chunks : List Chunk) (v : String) (st : Option (List String)),
    interpLoop cfg root self anc chunks v st =
      (interpLoop cfg root self anc chunks "" st).map (fun t => v ++ t)
  | [], v, none => by
      simp [interpLoop, Except.map, string_append_empty]
  | [], v, some r => by
      simp [interpLoop, Except.map, string_empty_append, string_append_assoc]
  | .esc :: rest, v, none => by
      have s1 : interpLoop cfg root self anc (.esc :: rest) v none =
          interpLoop cfg root self anc rest (v ++ "$") none := rfl
      have s2 : interpLoop cfg root self anc (.esc :: rest) "" none =
          interpLoop cfg root self anc rest ("" ++ "$") none := rfl
      rw [s1, s2, string_empty_append,
        interpLoop_addValue cfg root self anc rest (v ++ "$") none,
        interpLoop_addValue cfg root self anc rest "$" none, exceptMap_map]
      congr 1
      funext t
      rw [string_append_assoc]
  | .psep :: rest, v, none => by
      have s1 : interpLoop cfg root self anc (.psep :: rest) v none =
          interpLoop cfg root self anc rest (v ++ "$:") none := rfl
      have s2 : interpLoop cfg root self anc (.psep :: rest) "" none =
          interpLoop cfg root self anc rest ("" ++ "$:") none := rfl
      rw [s1, s2, string_empty_append,
        interpLoop_addValue cfg root self anc rest (v ++ "$:") none,
        interpLoop_addValue cfg root self anc rest "$:" none, exceptMap_map]
      congr 1
      funext t
      rw [string_append_assoc]
  | .pclose :: rest, v, none => by
      have s1 : interpLoop cfg root self anc (.pclose :: rest) v none =
          interpLoop cfg root self anc rest (v ++ "$\x7d") none := rfl
      have s2 : interpLoop cfg root self anc (.pclose :: rest) "" none =
          interpLoop cfg root self anc rest ("" ++ "$\x7d") none := rfl
      rw [s1, s2, string_empty_append,
        interpLoop_addValue cfg root self anc rest (v ++ "$\x7d") none,
        interpLoop_addValue cfg root self anc rest "$\x7d" none, exceptMap_map]
      congr 1
      funext t
      rw [string_append_assoc]
  | .ch c :: rest, v, none => by
      have s1 : interpLoop cfg root self anc (.ch c :: rest) v none =
          interpLoop cfg root self anc rest (v.push c) none := rfl
      have s2 : interpLoop cfg root self anc (.ch c :: rest) "" none =
          interpLoop cfg root self anc rest ("".push c) none := rfl
      rw [s1, s2,
        interpLoop_addValue cfg root self anc rest (v.push c) none,
        interpLoop_addValue cfg root self anc rest ("".push c) none,
        exceptMap_map]
      congr 1
      funext t
      rw [string_push_eq, string_push_eq, string_empty_append,
        string_append_assoc]
  | .popen :: rest, v, none => by
      have s1 : interpLoop cfg root self anc (.popen :: rest) v none =
          interpLoop cfg root self anc rest v (some [""]) := rfl
      have s2 : interpLoop cfg root self anc (.popen :: rest) "" none =
          interpLoop cfg root self anc rest "" (some [""]) := rfl
      rw [s1, s2]
      exact interpLoop_addValue cfg root self anc rest v (some [""])
  | .esc :: rest, v, some r => by
      have s1 : interpLoop cfg root self anc (.esc :: rest) v (some r) =
          interpLoop cfg root self anc rest v (some (appendCur r "$")) := rfl
      have s2 : interpLoop cfg root self anc (.esc :: rest) "" (some r) =
          interpLoop cfg root self anc rest "" (some (appendCur r "$")) := rfl
      rw [s1, s2]
      exact interpLoop_addValue cfg root self anc rest v (some (appendCur r "$"))
  | .psep :: rest, v, some r => by
      have s1 : interpLoop cfg root self anc (.psep :: rest) v (some r) =
          interpLoop cfg root self anc rest v (some ("" :: r)) := rfl
      have s2 : interpLoop cfg root self anc (.psep :: rest) "" (some r) =
          interpLoop cfg root self anc rest "" (some ("" :: r)) := rfl
      rw [s1, s2]
      exact interpLoop_addValue cfg root self anc rest v (some ("" :: r))
  | .popen :: rest, v, some r => by
      have s1 : interpLoop cfg root self anc (.popen :: rest) v (some r) =
          interpLoop cfg root self anc rest v (some (appendCur r "$\x7b")) := rfl
      have s2 : interpLoop cfg root self anc (.popen :: rest) "" (some r) =
          interpLoop cfg root self anc rest "" (some (appendCur r "$\x7b")) := rfl
      rw [s1, s2]
      exact interpLoop_addValue cfg root self anc rest v (some (appendCur r "$\x7b"))
  | .ch c :: rest, v, some r => by
      have s1 : interpLoop cfg root self anc (.ch c :: rest) v (some r) =
          interpLoop cfg root self anc rest v
            (some (appendCur r (String.singleton c))) := rfl
      have s2 : interpLoop cfg root self anc (.ch c :: rest) "" (some r) =
          interpLoop cfg root self anc rest ""
            (some (appendCur r (String.singleton c))) := rfl
      rw [s1, s2]
      exact interpLoop_addValue cfg root self anc rest v
        (some (appendCur r (String.singleton c)))
  | .pclose :: rest, v, some r => by
      have s1 : interpLoop cfg root self anc (.pclose :: rest) v (some r) =
          (match resolveClosed cfg root self anc r with
           | .error e => .error e
           | .ok rv => interpLoop cfg root self anc rest (v ++ rv) none) := rfl
      have s2 : interpLoop cfg root self anc (.pclose :: rest) "" (some r) =
          (match resolveClosed cfg root self anc r with
           | .error e => .error e
           | .ok rv => interpLoop cfg root self anc rest ("" ++ rv) none) := rfl
      rw [s1, s2]
      cases hrc : resolveClosed cfg root self anc r with
      | error e => simp [Except.map]
      | ok rv =>
          simp only [string_empty_append]
          rw [interpLoop_addValue cfg root self anc rest (v ++ rv) none,
            interpLoop_addValue cfg root self anc rest rv none, exceptMap_map]
          congr 1
          funext t
          rw [string_append_assoc]

theorem resolveClosed_reverse (cfg : Cfg) (root self : Section)
    (anc : List Section) (segs : List String) (h : segs ≠ []) :
    resolveClosed cfg root self anc segs.reverse =
      resolveRuleSpec cfg root self anc segs := by
  induction segs using List.reverseRecOn with
  | nil => exact absurd rfl h
  | append_singleton Y opt ih =>
      cases Y with
      | nil => rfl
      | cons y0 Y2 =>
          have hrev : ((y0 :: Y2) ++ [opt]).reverse =
              opt :: (Y2.reverse ++ [y0]) := by simp
          rw [hrev, resolveClosed]
          rw [show (Y2.reverse ++ [y0]).reverse = y0 :: Y2 by simp]
          have hin : (match (y0 :: Y2 : List String) with
              | [] => Except.ok (self, anc)
              | first :: rest2 =>
                  if first = "" then interpDescend self anc rest2
                  else interpDescend root [] (first :: rest2)) =
              (if y0 = "" then interpDescend self anc Y2
               else interpDescend root [] (y0 :: Y2)) := rfl
          rw [hin]
          cases hz : Y2 ++ [opt] with
          | nil => exact absurd hz (by simp)
          | cons z zs =>
              have hsegs : (y0 :: Y2) ++ [opt] = y0 :: z :: zs := by
                rw [List.cons_append, hz]
              rw [hsegs, resolveRuleSpec]
              have hdrop : (z :: zs).dropLast = Y2 := by
                rw [← hz, List.dropLast_concat]
              have hlast : (z :: zs).getLastD "" = opt := by
                rw [← hz, List.getLastD_concat]
              by_cases h0 : y0 = ""
              · rw [if_pos h0, if_pos h0, specLookup, hdrop, hlast]
              · rw [if_neg h0, if_neg h0, specLookup]
                have hdrop2 : (y0 :: z :: zs).dropLast = y0 :: Y2 := by
                  rw [show (y0 :: z :: zs) = (y0 :: Y2) ++ [opt] from hsegs.symm,
                    List.dropLast_concat]
                have hlast2 : (y0 :: z :: zs).getLastD "" = opt := by
                  rw [show (y0 :: z :: zs) = (y0 :: Y2) ++ [opt] from hsegs.symm,
                    List.getLastD_concat]
                rw [hdrop2, hlast2]

/-! ### Claims C7, C8, C9: the interpolation resolver -/

theorem interpolateValue_closed (cfg : Cfg) (root self : Section)
    (anc : List Section) (pre post : String) (segs : List String)
    (hpre : dollarFree pre = true)
    (hsegs : ∀ seg ∈ segs, dollarFree seg = true)
    (hne : segs ≠ []) :
    interpolateValue cfg root self anc (pre ++ pathText segs ++ post) =
      (match resolveRuleSpec cfg root self anc segs with
       | .error e => .error e
       | .ok rv =>
           (interpolateValue cfg root self anc post).map
             (fun t => pre ++ rv ++ t)) := by
  cases segs with
  | nil => exact absurd rfl hne
  | cons s rest =>
      rw [interpolateValue]
      have hdata : (pre ++ pathText (s :: rest) ++ post).data =
          pre.data ++ ('$' :: '{' ::
            ((pyJoin "$:" (s :: rest)).data ++ ('$' :: '}' :: post.data))) := by
        rw [pathText]
        simp [string_data_append, show ("$\x7b" : String).data = ['$', '{'] from rfl,
          show ("$\x7d" : String).data = ['$', '}'] from rfl]
      rw [hdata, splitMarks_append_chs pre.data _ (dollarFree_chars hpre),
        splitMarks_popen,
        interpLoop_chs_none cfg root self anc pre.data _ "",
        string_mk_data, string_empty_append]
      have stepOpen : interpLoop cfg root self anc
          (Chunk.popen :: splitMarks ((pyJoin "$:" (s :: rest)).data ++
            ('$' :: '}' :: post.data))) pre none =
          interpLoop cfg root self anc
            (splitMarks ((pyJoin "$:" (s :: rest)).data ++
              ('$' :: '}' :: post.data))) pre (some [""]) := rfl
      rw [stepOpen,
        interpLoop_join_segs cfg root self anc rest s "" []
          ('$' :: '}' :: post.data) pre (hsegs s (by simp))
          (fun t ht => hsegs t (by simp [ht])),
        string_empty_append, splitMarks_pclose]
      have stepClose : interpLoop cfg root self anc
          (Chunk.pclose :: splitMarks post.data) pre
            (some (rest.reverse ++ [s])) =
          (match resolveClosed cfg root self anc (rest.reverse ++ [s]) with
           | .error e => .error e
           | .ok rv =>
               interpLoop cfg root self anc (splitMarks post.data) (pre ++ rv)
                 none) := rfl
      rw [stepClose, show rest.reverse ++ [s] = (s :: rest).reverse by simp,
        resolveClosed_reverse cfg root self anc (s :: rest) (by simp)]
      cases hr : resolveRuleSpec cfg root self anc (s :: rest) with
      | error e => rfl
      | ok rv =>
          show interpLoop cfg root self anc (splitMarks post.data) (pre ++ rv)
              none =
            Except.map (fun t => pre ++ rv ++ t)
              (interpolateValue cfg root self anc post)
          rw [interpLoop_addValue cfg root self anc (splitMarks post.data)
            (pre ++ rv) none]
          rfl

/-- Claim C7: when interpolation resolves a closed `${...$}` path inside
a value, a one-segment path is looked up as an option of the current
section; a multi-segment path with an empty first segment descends from
the current section through the remaining segments; any other
multi-segment path descends from the tree root through all segments, the
last being the option name; the final lookup goes through `get`, so
ancestor inheritance applies when configured. -/
theorem c7_interpolation_resolution (cfg : Cfg) (root self : Section)
    (anc : List Section) (pre post : String) (segs : List String)
    (hpre : dollarFree pre = true)
    (hsegs : ∀ seg ∈ segs, dollarFree seg = true)
    (hne : segs ≠ []) :
    interpolateValue cfg root self anc (pre ++ pathText segs ++ post) =
      (match resolveRuleSpec cfg root self anc segs with
       | .error e => .error e
       | .ok rv =>
           (interpolateValue cfg root self anc post).map
             (fun t => pre ++ rv ++ t)) :=
  interpolateValue_closed cfg root self anc pre post segs hpre hsegs hne

/-- Witness for C7: the spec example — with `[A] x = 1`, the value
`${A$:x$} tail` in another section resolves to `1 tail`. -/
theorem c7_witness :
    interpolateValue ⟨false, false, true, true⟩
      (.mk [] (.cons "A" (.mk [("x", "1")] .nil)
        (.cons "B" (.mk [("y", "0")] .nil) .nil)))
      (.mk [("y", "0")] .nil)
      [.mk [] (.cons "A" (.mk [("x", "1")] .nil)
        (.cons "B" (.mk [("y", "0")] .nil) .nil))]
      ("" ++ pathText ["A", "x"] ++ " tail") = .ok "1 tail" := by
  rw [c7_interpolation_resolution ⟨false, false, true, true⟩
    (.mk [] (.cons "A" (.mk [("x", "1")] .nil)
      (.cons "B" (.mk [("y", "0")] .nil) .nil)))
    (.mk [("y", "0")] .nil)
    [.mk [] (.cons "A" (.mk [("x", "1")] .nil)
      (.cons "B" (.mk [("y", "0")] .nil) .nil))]
    "" " tail" ["A", "x"] rfl (by decide) (by decide)]
  rfl

/-- Claim C8 (amended): an unterminated interpolation path does not
fail: at end of value the opener `${` and the `$:`-joined accumulated
segments are re-emitted, which reproduces the unterminated expression
exactly as written whenever it contains no further `$`-marker; a `$$`
escape inside the unclosed path, however, is collapsed to a single `$`
in the output rather than surviving verbatim. -/
theorem c8_unterminated_amended (cfg : Cfg) (root self : Section)
    (anc : List Section) (pre : String) (segs : List String)
    (hpre : dollarFree pre = true)
    (hsegs : ∀ seg ∈ segs, dollarFree seg = true)
    (hne : segs ≠ []) :
    interpolateValue cfg root self anc (pre ++ "$\x7b" ++ pyJoin "$:" segs) =
      .ok (pre ++ "$\x7b" ++ pyJoin "$:" segs) := by
  cases segs with
  | nil => exact absurd rfl hne
  | cons s rest =>
      rw [interpolateValue]
      have hdata : (pre ++ "$\x7b" ++ pyJoin "$:" (s :: rest)).data =
          pre.data ++ ('$' :: '{' :: (pyJoin "$:" (s :: rest)).data) := by
        simp [string_data_append, show ("$\x7b" : String).data = ['$', '{'] from rfl]
      rw [hdata, splitMarks_append_chs pre.data _ (dollarFree_chars hpre),
        splitMarks_popen,
        interpLoop_chs_none cfg root self anc pre.data _ "",
        string_mk_data, string_empty_append]
      have stepOpen : interpLoop cfg root self anc
          (Chunk.popen :: splitMarks ((pyJoin "$:" (s :: rest)).data)) pre
            none =
          interpLoop cfg root self anc
            (splitMarks ((pyJoin "$:" (s :: rest)).data)) pre (some [""]) := rfl
      rw [stepOpen,
        show (pyJoin "$:" (s :: rest)).data =
          (pyJoin "$:" (s :: rest)).data ++ [] from (List.append_nil _).symm,
        interpLoop_join_segs cfg root self anc rest s "" [] [] pre
          (hsegs s (by simp)) (fun t ht => hsegs t (by simp [ht])),
        string_empty_append]
      have stepEnd : interpLoop cfg root self anc (splitMarks []) pre
          (some (rest.reverse ++ [s])) =
          .ok (pre ++ "$\x7b" ++ pyJoin "$:" (rest.reverse ++ [s]).reverse) := rfl
      rw [stepEnd, show (rest.reverse ++ [s]).reverse = s :: rest by simp]

/-- Counterexample to claim C8 as stated: the unterminated expression
`${a$$b` does not survive as the literal input text — the `$$` escape it
contains is collapsed, producing `${a$b`. -/
theorem c8_counterexample :
    interpolateValue ⟨false, false, true, true⟩ emptySection emptySection []
      "$\x7ba$$b" = .ok "$\x7ba$b" ∧ ("$\x7ba$b" : String) ≠ "$\x7ba$$b" :=
  ⟨rfl, by decide⟩

/-- Witness for C8: a marker-free unclosed path is reproduced exactly. -/
theorem c8_witness :
    interpolateValue ⟨false, false, true, true⟩ emptySection emptySection []
      ("x " ++ "$\x7b" ++ pyJoin "$:" ["a", "b"]) =
      .ok ("x " ++ "$\x7b" ++ pyJoin "$:" ["a", "b"]) :=
  c8_unterminated_amended ⟨false, false, true, true⟩ emptySection emptySection
    [] "x " ["a", "b"] rfl (by decide) (by decide)

/-- Claim C9: the descent through the section segments of a
root-resolved interpolation path uses exact, case-sensitive lookup on
the child map — for every configuration, including `ignore_case=true` —
and a first segment that exactly matches no stored child name makes
`_interpolate` raise `KeyError` on that segment instead of resolving
case-insensitively or falling back to literal text. -/
theorem c9_exact_descent (cfg : Cfg) (root self : Section)
    (anc : List Section) (s z : String) (zs : List String)
    (hs0 : s ≠ "") (hfind : root.subs.findExact s = none)
    (hds : dollarFree s = true) (hdz : dollarFree z = true)
    (hdzs : ∀ t ∈ zs, dollarFree t = true) :
    interpolateValue cfg root self anc (pathText (s :: z :: zs)) =
      .error (.keyError s) := by
  have h := interpolateValue_closed cfg root self anc "" "" (s :: z :: zs)
    rfl (by
      intro t ht
      rcases List.mem_cons.mp ht with h1 | h1
      · exact h1 ▸ hds
      · rcases List.mem_cons.mp h1 with h2 | h2
        · exact h2 ▸ hdz
        · exact hdzs t h2) (by simp)
  rw [string_empty_append, string_append_empty] at h
  rw [h, resolveRuleSpec, if_neg hs0, specLookup]
  have hdl : (s :: z :: zs).dropLast = s :: (z :: zs).dropLast := rfl
  rw [hdl, interpDescend, hfind]

/-! ### Claim C3: unclassifiable lines and the undefined name `cfile` -/

/-- A line the parser can classify: blank, comment, option assignment
or section header. -/
def lineClassifiable (l : String) : Bool :=
  lineIsBlank l || lineIsComment l || (matchOption l).isSome ||
    (matchSectionRaw l).isSome

theorem parseLinesAux_bad (cfg : Cfg) (l : String) (suf : List String)
    (hl : lineClassifiable l = false) :
    ∀ (pre : List String) (t : Section) (cur : List String),
      (∀ p ∈ pre, lineClassifiable p = true) →
      parseLinesAux cfg (pre ++ l :: suf) t cur = .error (.nameError "cfile")
  | [], t, cur, _ => by
      have h4 := hl
      simp only [lineClassifiable, Bool.or_eq_false_iff] at h4
      obtain ⟨⟨⟨hb, hc⟩, ho⟩, hs⟩ := h4
      have hmo : matchOption l = none := by
        cases hx : matchOption l
        · rfl
        · rw [hx] at ho; exact absurd ho (by simp)
      have hms : matchSectionRaw l = none := by
        cases hx : matchSectionRaw l
        · rfl
        · rw [hx] at hs; exact absurd hs (by simp)
      simp [parseLinesAux, hb, hc, hmo, hms]
  | p :: pre, t, cur, h => by
      have hrest : ∀ q ∈ pre, lineClassifiable q = true :=
        fun q hq => h q (List.mem_cons_of_mem _ hq)
      show parseLinesAux cfg (p :: (pre ++ l :: suf)) t cur = _
      cases hb : lineIsBlank p with
      | true =>
          simp only [parseLinesAux, hb, if_true]
          exact parseLinesAux_bad cfg l suf hl pre t cur hrest
      | false =>
          cases hc : lineIsComment p with
          | true =>
              simp [parseLinesAux, hb, hc]
              exact parseLinesAux_bad cfg l suf hl pre t cur hrest
          | false =>
              cases hmo : matchOption p with
              | some kv =>
                  obtain ⟨k, v⟩ := kv
                  simp [parseLinesAux, hb, hc, hmo]
                  exact parseLinesAux_bad cfg l suf hl pre
                    (setValAt t cur k v) cur hrest
              | none =>
                  cases hms : matchSectionRaw p with
                  | some m =>
                      simp [parseLinesAux, hb, hc, hmo, hms]
                      exact parseLinesAux_bad cfg l suf hl pre
                        (parseDescend t (parseSubsections cfg m))
                        (parseSubsections cfg m) hrest
                  | none =>
                      exact absurd (h p (List.mem_cons_self _ _))
                        (by simp [lineClassifiable, hb, hc, hmo, hms])

/-- Claim C3 (code bug): the claim describes the intended `ParsingError`
carrying the file name, the raw line and its 1-based number, but the
`raise` in `_parse_file` formats its message with the name `cfile`,
which is not defined anywhere in the method (its only parameter is
`stream`); Python evaluates the format arguments first, so every
unclassifiable line makes `_parse_file` raise
`NameError: name 'cfile' is not defined` and the described
`ParsingError` is unreachable. -/
theorem c3_invalid_line_bug (cfg : Cfg) (pre : List String) (l : String)
    (suf : List String) (hpre : ∀ p ∈ pre, lineClassifiable p = true)
    (hl : lineClassifiable l = false) :
    parseFile cfg (pre ++ l :: suf) = .error (.nameError "cfile") :=
  parseLinesAux_bad cfg l suf hl pre emptySection [] hpre

/-- Witness for C3: the one-line file `!` hits the undefined name. -/
theorem c3_witness :
    parseFile ⟨false, false, true, true⟩ ([] ++ "!\n" :: []) =
      .error (.nameError "cfile") :=
  c3_invalid_line_bug ⟨false, false, true, true⟩ [] "!\n" [] (by simp)
    (by decide)

/-! ### Claim C10: leading blank lines are discarded on export -/

theorem dropWhile_append_of_all {α : Type} (p : α → Bool) :
    ∀ (xs ys : List α), (∀ x ∈ xs, p x = true) →
      List.dropWhile p (xs ++ ys) = List.dropWhile p ys
  | [], _, _ => rfl
  | x :: xs, ys, h => by
      have hx : p x = true := h x (List.mem_cons_self _ _)
      rw [List.cons_append, List.dropWhile_cons, if_pos hx]
      exact dropWhile_append_of_all p xs ys
        (fun q hq => h q (List.mem_cons_of_mem _ hq))

/-- Claim C10: for every export, under every policy, whitespace-only
lines at the very beginning of the pre-existing file are discarded
before the scan — the export of a file with a leading all-blank prefix
equals the export of the file without it. -/
theorem c10_leading_blanks (cfg : Cfg) (pol : Policy) (path : Bool)
    (root : Section) (basePath : List String) (blanks rest : List String)
    (hb : ∀ b ∈ blanks, lineIsBlank b = true) :
    exportFile cfg pol path root basePath (blanks ++ rest) =
      exportFile cfg pol path root basePath rest := by
  unfold exportFile
  rw [show dropLeadingBlanks (blanks ++ rest) = dropLeadingBlanks rest from
    dropWhile_append_of_all lineIsBlank blanks rest hb]

/-- Witness for C10: a conservative export (all policy flags off)
still drops the two leading blank lines. -/
theorem c10_witness :
    exportFile ⟨false, false, true, true⟩ ⟨false, false, false⟩ true
      emptySection [] (["\n", " \n"] ++ ["q w\n"]) =
      exportFile ⟨false, false, true, true⟩ ⟨false, false, false⟩ true
        emptySection [] ["q w\n"] :=
  c10_leading_blanks ⟨false, false, true, true⟩ ⟨false, false, false⟩ true
    emptySection [] ["\n", " \n"] ["q w\n"] (by decide)

/-! ### Claim C1 groundwork: line classification -/

theorem classify_blank (l : String) (h : classify l = .blank) :
    lineIsBlank l = true := by
  unfold classify at h
  split at h
  · assumption
  · split at h
    · simp at h
    · split at h
      · simp at h
      · split at h
        · simp at h
        · simp at h

theorem classify_comment (l : String) (h : classify l = .comment) :
    lineIsBlank l = false ∧ lineIsComment l = true := by
  unfold classify at h
  split at h
  next hb => simp at h
  next hb =>
    simp at hb
    split at h
    next hc => exact ⟨hb, hc⟩
    next hc =>
      split at h
      · simp at h
      · split at h
        · simp at h
        · simp at h

theorem classify_opt (l k v : String) (h : classify l = .opt k v) :
    lineIsBlank l = false ∧ lineIsComment l = false ∧
      matchOption l = some (k, v) := by
  unfold classify at h
  split at h
  next hb => simp at h
  next hb =>
    simp at hb
    split at h
    next hc => simp at h
    next hc =>
      simp at hc
      split at h
      next k2 v2 hmo =>
        simp only [LKind.opt.injEq] at h
        exact ⟨hb, hc, by rw [hmo, h.1, h.2]⟩
      next hmo =>
        split at h
        · simp at h
        · simp at h

theorem classify_sect (l m : String) (h : classify l = .sect m) :
    lineIsBlank l = false ∧ lineIsComment l = false ∧
      matchOption l = none ∧ matchSectionRaw l = some m := by
  unfold classify at h
  split at h
  next hb => simp at h
  next hb =>
    simp at hb
    split at h
    next hc => simp at h
    next hc =>
      simp at hc
      split at h
      next k2 v2 hmo => simp at h
      next hmo =>
        split at h
        next m2 hms =>
          simp only [LKind.sect.injEq] at h
          exact ⟨hb, hc, hmo, by rw [hms, h]⟩
        next hms => simp at h

theorem classify_bad (l : String) (h : classify l = .bad) :
    lineIsBlank l = false ∧ lineIsComment l = false ∧
      matchOption l = none ∧ matchSectionRaw l = none := by
  unfold classify at h
  split at h
  next hb => simp at h
  next hb =>
    simp at hb
    split at h
    next hc => simp at h
    next hc =>
      simp at hc
      split at h
      next k2 v2 hmo => simp at h
      next hmo =>
        split at h
        next m2 hms => simp at h
        next hms => exact ⟨hb, hc, hmo, hms⟩

/-- A successful `_parse_file` run computes `parseGo`. -/
theorem parseLinesAux_ok_eq (cfg : Cfg) : ∀ (ls : List String) (t : Section)
    (cur : List String) (r : Section),
    parseLinesAux cfg ls t cur = .ok r → r = parseGo cfg ls t cur
  | [], t, cur, r, h => by
      simp [parseLinesAux] at h
      simp [parseGo, h]
  | l :: ls, t, cur, r, h => by
      unfold parseLinesAux at h
      cases hcl : classify l with
      | blank =>
          have hb := classify_blank l hcl
          rw [hb] at h
          simp only [if_true] at h
          simp only [parseGo, hcl]
          exact parseLinesAux_ok_eq cfg ls t cur r h
      | comment =>
          obtain ⟨hb, hc⟩ := classify_comment l hcl
          rw [hb, hc] at h
          simp only [Bool.false_eq_true, if_false, if_true] at h
          simp only [parseGo, hcl]
          exact parseLinesAux_ok_eq cfg ls t cur r h
      | opt k v =>
          obtain ⟨hb, hc, hmo⟩ := classify_opt l k v hcl
          rw [hb, hc, hmo] at h
          simp only [Bool.false_eq_true, if_false] at h
          simp only [parseGo, hcl]
          exact parseLinesAux_ok_eq cfg ls (setValAt t cur k v) cur r h
      | sect m =>
          obtain ⟨hb, hc, hmo, hms⟩ := classify_sect l m hcl
          rw [hb, hc, hmo, hms] at h
          simp only [Bool.false_eq_true, if_false] at h
          simp only [parseGo, hcl]
          exact parseLinesAux_ok_eq cfg ls
            (parseDescend t (parseSubsections cfg m)) (parseSubsections cfg m)
            r h
      | bad =>
          obtain ⟨hb, hc, hmo, hms⟩ := classify_bad l hcl
          rw [hb, hc, hmo, hms] at h
          simp only [Bool.false_eq_true, if_false] at h
          exact Except.noConfusion h

/-- `parseGo` over an appended run. -/
theorem parseGo_append (cfg : Cfg) : ∀ (a b : List String) (t : Section)
    (cur : List String),
    parseGo cfg (a ++ b) t cur =
      parseGo cfg b (parseGo cfg a t cur) (lastCur cfg a cur)
  | [], b, t, cur => rfl
  | l :: a, b, t, cur => by
      cases hcl : classify l <;>
        simp only [List.cons_append, parseGo, lastCur, hcl] <;>
        exact parseGo_append cfg a b _ _

/-! ### String.join helpers -/

theorem string_foldl_append (l : List String) : ∀ (acc : String),
    l.foldl (fun r s => r ++ s) acc = acc ++ String.join l := by
  induction l with
  | nil => intro acc; simp [String.join, string_append_empty]
  | cons s r ih =>
      intro acc
      show List.foldl _ (acc ++ s) r = acc ++ String.join (s :: r)
      rw [ih (acc ++ s)]
      have : String.join (s :: r) = s ++ String.join r := by
        show List.foldl _ ("" ++ s) r = _
        rw [ih ("" ++ s), string_empty_append]
      rw [this, string_append_assoc]

theorem string_join_cons (s : String) (l : List String) :
    String.join (s :: l) = s ++ String.join l := by
  show List.foldl _ ("" ++ s) l = _
  rw [string_foldl_append l ("" ++ s), string_empty_append]

theorem string_join_append (a b : List String) :
    String.join (a ++ b) = String.join a ++ String.join b := by
  induction a with
  | nil => simp [String.join, string_empty_append]
  | cons s r ih =>
      rw [List.cons_append, string_join_cons, ih, string_join_cons,
        string_append_assoc]

/-! ### Claim C1 groundwork: per-node option maps under parsing steps -/

theorem findExact_setExact_ne : ∀ (su : SubsList) (k s : String) (v : Section),
    s ≠ k → (su.setExact k v).findExact s = su.findExact s
  | .nil, k, s, v, h => by
      simp [SubsList.setExact, SubsList.findExact, Ne.symm h]
  | .cons n sec r, k, s, v, h => by
      simp only [SubsList.setExact]
      by_cases hn : n = k
      · subst hn
        simp [SubsList.findExact, Ne.symm h]
      · simp only [if_neg hn, SubsList.findExact]
        by_cases hs : n = s
        · simp [hs]
        · simp [hs, findExact_setExact_ne r k s v h]

theorem findExact_setExact_self : ∀ (su : SubsList) (k : String) (v : Section),
    (su.setExact k v).findExact k = some v
  | .nil, k, v => by simp [SubsList.setExact, SubsList.findExact]
  | .cons n sec r, k, v => by
      simp only [SubsList.setExact]
      by_cases hn : n = k
      · simp [SubsList.findExact, hn]
      · simp [SubsList.findExact, hn, findExact_setExact_self r k v]

theorem nodeAt_append : ∀ (a b : List String) (t : Section),
    nodeAt t (a ++ b) = (nodeAt t a).bind (fun n => nodeAt n b)
  | [], b, t => rfl
  | n :: a, b, .mk o su => by
      show nodeAt (.mk o su) (n :: (a ++ b)) = _
      cases hf : su.findExact n with
      | some c =>
          simp [nodeAt, Section.subs, hf]
          exact nodeAt_append a b c
      | none => simp [nodeAt, Section.subs, hf]

theorem findExact_setValAtSubs : ∀ (su : SubsList) (n : String)
    (rest : List String) (k v m : String),
    (setValAtSubs su n rest k v).findExact m =
      if m = n then (su.findExact n).map (fun c => setValAt c rest k v)
      else su.findExact m
  | .nil, n, rest, k, v, m => by
      simp [setValAtSubs, SubsList.findExact]
  | .cons s sec r, n, rest, k, v, m => by
      simp only [setValAtSubs]
      by_cases hs : s = n
      · subst hs
        simp only [if_true, SubsList.findExact]
        by_cases hm : s = m
        · subst hm
          simp [SubsList.findExact]
        · simp [SubsList.findExact, hm, Ne.symm hm,
            findExact_setValAtSubs r s rest k v m]
      · simp only [if_neg hs, SubsList.findExact]
        by_cases hm : s = m
        · subst hm
          simp [SubsList.findExact, hs, Ne.symm hs]
        · simp [SubsList.findExact, hm,
            findExact_setValAtSubs r n rest k v m]

theorem optsAt_setValAt : ∀ (cur : List String) (t : Section)
    (p : List String) (k v : String),
    optsAt (setValAt t cur k v) p =
      if p = cur then (optsAt t p).map (fun o => odSetExact o k v)
      else optsAt t p
  | [], .mk o su, p, k, v => by
      cases p with
      | nil => simp [optsAt, nodeAt, setValAt, Section.opts]
      | cons n r => simp [optsAt, nodeAt, setValAt, Section.subs]
  | c :: cr, .mk o su, p, k, v => by
      cases p with
      | nil => simp [optsAt, nodeAt, setValAt, Section.opts]
      | cons n r =>
          simp only [setValAt, optsAt, nodeAt, Section.subs]
          rw [findExact_setValAtSubs su c cr k v n]
          by_cases hn : n = c
          · subst hn
            rw [if_pos rfl]
            cases hf : su.findExact n with
            | none => simp [hf]
            | some child =>
                simp only [hf, Option.map_some']
                have hc := optsAt_setValAt cr child r k v
                simp only [optsAt] at hc
                rw [hc]
                by_cases hr : r = cr
                · simp [hr]
                · have hne : ¬(n :: r = n :: cr) := by
                    intro hh
                    exact hr (List.cons_eq_cons.mp hh).2
                  simp [hr, hne]
          · have hne : ¬(n :: r = c :: cr) := by
              intro hh
              exact hn (List.cons_eq_cons.mp hh).1
            simp [hn, hne]

theorem optsAt_parseDescend : ∀ (names : List String) (t : Section)
    (p : List String),
    optsAt (parseDescend t names) p =
      match optsAt t p with
      | some o => some o
      | none => if p.isPrefixOf names then some [] else none
  | [], t, p => by
      have hd : parseDescend t [] = t := by cases t; rfl
      rw [hd]
      cases ho : optsAt t p with
      | some o => rfl
      | none =>
          cases p with
          | nil => simp [optsAt, nodeAt] at ho
          | cons q qr => simp [List.isPrefixOf]
  | nm :: nr, .mk o su, p => by
      cases hf : su.findExact nm with
      | some c =>
          have hd : parseDescend (.mk o su) (nm :: nr) =
              .mk o (su.setExact nm (parseDescend c nr)) := by
            simp [parseDescend, hf]
          rw [hd]
          cases p with
          | nil => simp [optsAt, nodeAt, Section.opts]
          | cons q qr =>
              by_cases hq : q = nm
              · subst hq
                simp only [optsAt, nodeAt, Section.subs,
                  findExact_setExact_self su q (parseDescend c nr), hf]
                have ih := optsAt_parseDescend nr c qr
                simp only [optsAt] at ih
                rw [ih]
                have hpp : (q :: qr).isPrefixOf (q :: nr) = qr.isPrefixOf nr := by
                  simp [List.isPrefixOf]
                rw [hpp]
              · simp only [optsAt, nodeAt, Section.subs,
                  findExact_setExact_ne su nm q (parseDescend c nr) hq]
                cases ho : su.findExact q with
                | some d =>
                    cases hatd : nodeAt d qr <;> simp [hatd, List.isPrefixOf, hq]
                | none => simp [List.isPrefixOf, hq]
      | none =>
          have hd : parseDescend (.mk o su) (nm :: nr) =
              .mk o (su.setExact nm (parseDescend emptySection nr)) := by
            simp [parseDescend, hf]
          rw [hd]
          cases p with
          | nil => simp [optsAt, nodeAt, Section.opts]
          | cons q qr =>
              by_cases hq : q = nm
              · subst hq
                simp only [optsAt, nodeAt, Section.subs,
                  findExact_setExact_self su q (parseDescend emptySection nr),
                  hf]
                have ih := optsAt_parseDescend nr emptySection qr
                simp only [optsAt] at ih
                rw [ih]
                have hpp : (q :: qr).isPrefixOf (q :: nr) = qr.isPrefixOf nr := by
                  simp [List.isPrefixOf]
                rw [hpp]
                cases qr with
                | nil => simp [nodeAt, emptySection, Section.opts, List.isPrefixOf]
                | cons x xr =>
                    simp [nodeAt, emptySection, Section.subs, SubsList.findExact]
              · simp only [optsAt, nodeAt, Section.subs,
                  findExact_setExact_ne su nm q (parseDescend emptySection nr) hq]
                cases ho : su.findExact q with
                | some d =>
                    cases hatd : nodeAt d qr <;> simp [hatd, List.isPrefixOf, hq]
                | none => simp [List.isPrefixOf, hq]

theorem headerPaths_append (cfg : Cfg) : ∀ (a b : List String),
    headerPaths cfg (a ++ b) = headerPaths cfg a ++ headerPaths cfg b
  | [], b => rfl
  | l :: a, b => by
      rw [List.cons_append]
      cases hcl : classify l with
      | sect m =>
          simp only [headerPaths, hcl, List.cons_append]
          exact congrArg (List.cons (parseSubsections cfg m))
            (headerPaths_append cfg a b)
      | blank =>
          simp only [headerPaths, hcl]
          exact headerPaths_append cfg a b
      | comment =>
          simp only [headerPaths, hcl]
          exact headerPaths_append cfg a b
      | opt k v =>
          simp only [headerPaths, hcl]
          exact headerPaths_append cfg a b
      | bad =>
          simp only [headerPaths, hcl]
          exact headerPaths_append cfg a b

theorem parseSubsections_ne_nil (cfg : Cfg) (m : String) :
    parseSubsections cfg m ≠ [] := by
  unfold parseSubsections
  by_cases hs : cfg.subsections
  · simp only [hs, if_true]
    intro h
    exact splitDots_ne_nil m.data (by simpa using h)
  · simp [hs]

theorem optsAt_parseGo (cfg : Cfg) : ∀ (ls : List String) (t : Section)
    (cur p : List String) (o : List (String × String)),
    p ∉ headerPaths cfg ls → optsAt t p = some o →
    optsAt (parseGo cfg ls t cur) p =
      some (if p = cur then applyRegion o (regionAssoc ls) else o)
  | [], t, cur, p, o, _, ho => by
      simp only [parseGo, regionAssoc, applyRegion, List.foldl_nil, ite_self]
      exact ho
  | l :: ls, t, cur, p, o, hnp, ho => by
      cases hcl : classify l with
      | opt k v =>
          have hnp2 : p ∉ headerPaths cfg ls := by
            simpa [headerPaths, hcl] using hnp
          simp only [parseGo, hcl, regionAssoc]
          have hset := optsAt_setValAt cur t p k v
          by_cases hpc : p = cur
          · subst hpc
            rw [if_pos rfl, ho] at hset
            have ih := optsAt_parseGo cfg ls (setValAt t p k v) p p
              (odSetExact o k v) hnp2 hset
            rw [ih, if_pos rfl, if_pos rfl]
            rfl
          · rw [if_neg hpc, ho] at hset
            have ih := optsAt_parseGo cfg ls (setValAt t cur k v) cur p o
              hnp2 hset
            rw [ih, if_neg hpc, if_neg hpc]
      | sect m =>
          have hmem := List.mem_cons.not.mp (by
            simpa [headerPaths, hcl] using hnp)
          push_neg at hmem
          obtain ⟨hpn, hnp2⟩ := hmem
          simp only [parseGo, hcl, regionAssoc]
          have hd := optsAt_parseDescend (parseSubsections cfg m) t p
          rw [ho] at hd
          have ih := optsAt_parseGo cfg ls (parseDescend t (parseSubsections cfg m))
            (parseSubsections cfg m) p o hnp2 hd
          rw [ih, if_neg hpn]
          have har : applyRegion o [] = o := rfl
          rw [har, ite_self]
      | blank =>
          have hnp2 : p ∉ headerPaths cfg ls := by
            simpa [headerPaths, hcl] using hnp
          simp only [parseGo, hcl, regionAssoc]
          exact optsAt_parseGo cfg ls t cur p o hnp2 ho
      | comment =>
          have hnp2 : p ∉ headerPaths cfg ls := by
            simpa [headerPaths, hcl] using hnp
          simp only [parseGo, hcl, regionAssoc]
          exact optsAt_parseGo cfg ls t cur p o hnp2 ho
      | bad =>
          have hnp2 : p ∉ headerPaths cfg ls := by
            simpa [headerPaths, hcl] using hnp
          simp only [parseGo, hcl, regionAssoc]
          exact optsAt_parseGo cfg ls t cur p o hnp2 ho

theorem optsAt_parseGo_small (cfg : Cfg) : ∀ (ls : List String) (t : Section)
    (cur p : List String),
    (optsAt t p = none ∨ optsAt t p = some []) →
    p ∉ headerPaths cfg ls → p ≠ cur →
    (optsAt (parseGo cfg ls t cur) p = none ∨
      optsAt (parseGo cfg ls t cur) p = some [])
  | [], t, cur, p, ho, _, _ => ho
  | l :: ls, t, cur, p, ho, hnp, hpc => by
      cases hcl : classify l with
      | opt k v =>
          have hnp2 : p ∉ headerPaths cfg ls := by
            simpa [headerPaths, hcl] using hnp
          simp only [parseGo, hcl]
          have hset := optsAt_setValAt cur t p k v
          rw [if_neg hpc] at hset
          exact optsAt_parseGo_small cfg ls (setValAt t cur k v) cur p
            (hset ▸ ho) hnp2 hpc
      | sect m =>
          have hmem := List.mem_cons.not.mp (by
            simpa [headerPaths, hcl] using hnp)
          push_neg at hmem
          obtain ⟨hpn, hnp2⟩ := hmem
          simp only [parseGo, hcl]
          have hd := optsAt_parseDescend (parseSubsections cfg m) t p
          have hsmall : optsAt (parseDescend t (parseSubsections cfg m)) p = none ∨
              optsAt (parseDescend t (parseSubsections cfg m)) p = some [] := by
            cases ho with
            | inl h =>
                rw [h] at hd
                by_cases hpre : p.isPrefixOf (parseSubsections cfg m)
            -- decide branch of the if
                · right; rw [hd]; simp [hpre]
                · left; rw [hd]; simp [hpre]
            | inr h => rw [h] at hd; right; exact hd
          exact optsAt_parseGo_small cfg ls _ (parseSubsections cfg m) p hsmall
            hnp2 hpn
      | blank =>
          have hnp2 : p ∉ headerPaths cfg ls := by
            simpa [headerPaths, hcl] using hnp
          simp only [parseGo, hcl]
          exact optsAt_parseGo_small cfg ls t cur p ho hnp2 hpc
      | comment =>
          have hnp2 : p ∉ headerPaths cfg ls := by
            simpa [headerPaths, hcl] using hnp
          simp only [parseGo, hcl]
          exact optsAt_parseGo_small cfg ls t cur p ho hnp2 hpc
      | bad =>
          have hnp2 : p ∉ headerPaths cfg ls := by
            simpa [headerPaths, hcl] using hnp
          simp only [parseGo, hcl]
          exact optsAt_parseGo_small cfg ls t cur p ho hnp2 hpc

theorem odSetExact_append_fresh : ∀ (acc : List (String × String)) (k v : String),
    (∀ kv ∈ acc, kv.1 ≠ k) → odSetExact acc k v = acc ++ [(k, v)]
  | [], k, v, _ => rfl
  | (n, w) :: r, k, v, h => by
      have hn : n ≠ k := h (n, w) (List.mem_cons_self _ _)
      simp only [odSetExact, if_neg hn, List.cons_append]
      rw [odSetExact_append_fresh r k v
        (fun kv hm => h kv (List.mem_cons_of_mem _ hm))]

theorem applyRegion_fresh : ∀ (pairs acc : List (String × String))
    (ks : List String),
    keysFresh ks pairs = true → (∀ kv ∈ acc, ks.contains kv.1 = true) →
    applyRegion acc pairs = acc ++ pairs
  | [], acc, ks, _, _ => by simp [applyRegion]
  | (k, v) :: r, acc, ks, hf, hacc => by
      simp only [keysFresh, Bool.and_eq_true] at hf
      have hkc : ks.contains k = false := by simpa using hf.1
      have hkacc : ∀ kv ∈ acc, kv.1 ≠ k := by
        intro kv hm heq
        have := hacc kv hm
        rw [heq, hkc] at this
        exact Bool.noConfusion this
      show applyRegion (odSetExact acc k v) r = acc ++ (k, v) :: r
      rw [odSetExact_append_fresh acc k v hkacc]
      rw [applyRegion_fresh r (acc ++ [(k, v)]) (k :: ks) hf.2 (by
        intro kv hm
        rcases List.mem_append.mp hm with h1 | h1
        · have hks := hacc kv h1
          simp only [List.contains_cons, Bool.or_eq_true]
          right
          exact hks
        · simp at h1
          simp [h1, List.contains_cons])]
      simp

theorem dedupAux_fresh : ∀ (pairs : List (String × String)) (seen : List String),
    keysFresh seen pairs = true → dedupAux seen pairs = pairs
  | [], _, _ => rfl
  | (k, v) :: r, seen, h => by
      simp only [keysFresh, Bool.and_eq_true] at h
      have hc : seen.contains k = false := by simpa using h.1
      simp only [dedupAux, hc, Bool.false_eq_true, if_false]
      rw [dedupAux_fresh r (k :: seen) h.2]

theorem keysFresh_regionAssoc : ∀ (ls ks : List String),
    regionsOKAux ks ls = true → keysFresh ks (regionAssoc ls) = true
  | [], _, _ => rfl
  | l :: ls, ks, h => by
      cases hcl : classify l with
      | opt k v =>
          simp only [regionsOKAux, hcl, Bool.and_eq_true] at h
          simp only [regionAssoc, hcl, keysFresh, Bool.and_eq_true]
          exact ⟨h.1, keysFresh_regionAssoc ls (k :: ks) h.2⟩
      | sect m => simp [regionAssoc, hcl, keysFresh]
      | blank =>
          simp only [regionsOKAux, hcl] at h
          simp only [regionAssoc, hcl]
          exact keysFresh_regionAssoc ls ks h
      | comment =>
          simp only [regionsOKAux, hcl] at h
          simp only [regionAssoc, hcl]
          exact keysFresh_regionAssoc ls ks h
      | bad =>
          simp only [regionsOKAux, hcl] at h
          simp only [regionAssoc, hcl]
          exact keysFresh_regionAssoc ls ks h

theorem regionsOKAux_decomp : ∀ (pre ks : List String) (h : String)
    (ls : List String) (m : String),
    regionsOKAux ks (pre ++ h :: ls) = true → classify h = .sect m →
    regionsOKAux [] ls = true
  | [], ks, h, ls, m, hr, hcl => by
      simpa [regionsOKAux, hcl] using hr
  | l :: pre, ks, h, ls, m, hr, hcl => by
      cases hcl2 : classify l with
      | opt k v =>
          simp only [List.cons_append, regionsOKAux, hcl2,
            Bool.and_eq_true] at hr
          exact regionsOKAux_decomp pre (k :: ks) h ls m hr.2 hcl
      | sect m2 =>
          simp only [List.cons_append, regionsOKAux, hcl2] at hr
          exact regionsOKAux_decomp pre [] h ls m hr hcl
      | blank =>
          simp only [List.cons_append, regionsOKAux, hcl2] at hr
          exact regionsOKAux_decomp pre ks h ls m hr hcl
      | comment =>
          simp only [List.cons_append, regionsOKAux, hcl2] at hr
          exact regionsOKAux_decomp pre ks h ls m hr hcl
      | bad =>
          simp only [List.cons_append, regionsOKAux, hcl2] at hr
          exact regionsOKAux_decomp pre ks h ls m hr hcl

/-! ### Claim C1 groundwork: tree validity, headers, descendants -/

theorem distinctBy_imp_nodup (f : String → String) : ∀ (l : List String),
    distinctBy f l = true → l.Nodup
  | [], _ => List.nodup_nil
  | k :: r, h => by
      simp only [distinctBy, Bool.and_eq_true, List.all_eq_true] at h
      refine List.nodup_cons.mpr ⟨?_, distinctBy_imp_nodup f r h.2⟩
      intro hm
      have := h.1 k hm
      simp at this

theorem goodSubs_findExact : ∀ (su : SubsList) (cfg : Cfg) (s : String)
    (c : Section), goodSubs cfg su = true → su.findExact s = some c →
    goodTree cfg c = true
  | .nil, cfg, s, c, _, hf => by simp [SubsList.findExact] at hf
  | .cons n sec r, cfg, s, c, hg, hf => by
      simp only [goodSubs, Bool.and_eq_true] at hg
      simp only [SubsList.findExact] at hf
      by_cases hn : n = s
      · rw [if_pos hn] at hf
        cases hf
        exact hg.1.2
      · rw [if_neg hn] at hf
        exact goodSubs_findExact r cfg s c hg.2 hf

theorem goodTree_subs_distinct (cfg : Cfg) (o : List (String × String))
    (su : SubsList) (hg : goodTree cfg (.mk o su) = true) :
    distinctBy (foldName cfg.ignore_case) su.names = true := by
  simp only [goodTree, Bool.and_eq_true, Section.subs] at hg
  exact hg.1.2

theorem goodTree_goodSubs (cfg : Cfg) (o : List (String × String))
    (su : SubsList) (hg : goodTree cfg (.mk o su) = true) :
    goodSubs cfg su = true := by
  simp only [goodTree, Bool.and_eq_true, Section.subs] at hg
  exact hg.2

theorem goodTree_at : ∀ (p : List String) (t : Section) (cfg : Cfg)
    (n : Section), goodTree cfg t = true → nodeAt t p = some n →
    goodTree cfg n = true
  | [], t, cfg, n, hg, hf => by
      simp only [nodeAt] at hf
      cases hf
      exact hg
  | x :: xr, .mk o su, cfg, n, hg, hf => by
      simp only [nodeAt, Section.subs] at hf
      cases hfe : su.findExact x with
      | none => rw [hfe] at hf; exact Option.noConfusion hf
      | some c =>
          rw [hfe] at hf
          exact goodTree_at xr c cfg n
            (goodSubs_findExact su cfg x c (goodTree_goodSubs cfg o su hg) hfe)
            hf

theorem findExact_mem_names : ∀ (su : SubsList) (s : String) (c : Section),
    su.findExact s = some c → s ∈ su.names
  | .nil, s, c, h => by simp [SubsList.findExact] at h
  | .cons n sec r, s, c, h => by
      simp only [SubsList.findExact] at h
      by_cases hn : n = s
      · simp [SubsList.names, hn]
      · rw [if_neg hn] at h
        exact List.mem_cons_of_mem _ (findExact_mem_names r s c h)

theorem findFold_of_findExact (ic : Bool) : ∀ (su : SubsList) (s : String)
    (c : Section), distinctBy (foldName ic) su.names = true →
    su.findExact s = some c → su.findFold ic s = some (s, c)
  | .nil, s, c, _, hf => by simp [SubsList.findExact] at hf
  | .cons n sec r, s, c, hd, hf => by
      simp only [SubsList.names, distinctBy, Bool.and_eq_true,
        List.all_eq_true] at hd
      simp only [SubsList.findExact] at hf
      simp only [SubsList.findFold]
      by_cases hn : n = s
      · rw [if_pos hn] at hf
        cases hf
        subst hn
        simp
      · rw [if_neg hn] at hf
        have hmem := findExact_mem_names r s c hf
        have hne := hd.1 s hmem
        simp only [bne_iff_ne, ne_eq] at hne
        rw [if_neg hne]
        exact findFold_of_findExact ic r s c hd.2 hf

theorem resolveNames_exact (cfg : Cfg) (root : Section)
    (hg : goodTree cfg root = true) : ∀ (names start : List String)
    (n : Section), nodeAt root (start ++ names) = some n →
    resolveNames cfg root start names = .ok (start ++ names)
  | [], start, n, hf => by simp [resolveNames]
  | nm :: nr, start, n, hf => by
      have hsplit := nodeAt_append start (nm :: nr) root
      rw [hf] at hsplit
      cases hstart : nodeAt root start with
      | none => rw [hstart] at hsplit; exact Option.noConfusion hsplit.symm
      | some node =>
          rw [hstart] at hsplit
          simp only [Option.some_bind] at hsplit
          cases node with
          | mk no nsu =>
              have hchild : ∃ c, nsu.findExact nm = some c ∧
                  nodeAt c nr = some n := by
                simp only [nodeAt, Section.subs] at hsplit
                cases hfe : nsu.findExact nm with
                | none =>
                    rw [hfe] at hsplit
                    exact Option.noConfusion hsplit.symm
                | some c =>
                    rw [hfe] at hsplit
                    exact ⟨c, rfl, hsplit.symm⟩
              obtain ⟨c, hfe, hnext⟩ := hchild
              have hgn := goodTree_at start root cfg (.mk no nsu) hg hstart
              have hff := findFold_of_findExact cfg.ignore_case nsu nm c
                (goodTree_subs_distinct cfg no nsu hgn) hfe
              simp only [resolveNames, callOne, hstart, Section.subs, hff]
              rw [List.append_cons] at hf
              rw [resolveNames_exact cfg root hg nr (start ++ [nm]) n hf]
              simp

mutual

theorem descPaths_shape : ∀ (t : Section) (pre x : List String),
    x ∈ descPaths pre t → ∃ n s, n ∈ t.subs.names ∧ x = pre ++ n :: s
  | .mk o su, pre, x, hm => descPathsSubs_shape su pre x hm

theorem descPathsSubs_shape : ∀ (su : SubsList) (pre x : List String),
    x ∈ descPathsSubs pre su → ∃ n s, n ∈ su.names ∧ x = pre ++ n :: s
  | .nil, pre, x, hm => by simp [descPathsSubs] at hm
  | .cons n sec r, pre, x, hm => by
      simp only [descPathsSubs, List.mem_cons, List.mem_append] at hm
      rcases hm with h1 | h2 | h3
      · exact ⟨n, [], by simp [SubsList.names], by simpa using h1⟩
      · obtain ⟨n2, s2, _, hx⟩ := descPaths_shape sec (pre ++ [n]) x h2
        exact ⟨n, n2 :: s2, by simp [SubsList.names], by rw [hx]; simp⟩
      · obtain ⟨n2, s2, hmem, hx⟩ := descPathsSubs_shape r pre x h3
        exact ⟨n2, s2, List.mem_cons_of_mem _ hmem, hx⟩

end

mutual

theorem descPaths_nodup (cfg : Cfg) : ∀ (t : Section) (pre : List String),
    goodTree cfg t = true → (descPaths pre t).Nodup
  | .mk o su, pre, hg =>
      descPathsSubs_nodup cfg su pre
        (distinctBy_imp_nodup _ _ (goodTree_subs_distinct cfg o su hg))
        (goodTree_goodSubs cfg o su hg)

theorem descPathsSubs_nodup (cfg : Cfg) : ∀ (su : SubsList)
    (pre : List String), su.names.Nodup → goodSubs cfg su = true →
    (descPathsSubs pre su).Nodup
  | .nil, pre, _, _ => List.nodup_nil
  | .cons n sec r, pre, hnd, hgs => by
      simp only [SubsList.names, List.nodup_cons] at hnd
      simp only [goodSubs, Bool.and_eq_true] at hgs
      simp only [descPathsSubs, List.nodup_cons, List.mem_append]
      refine ⟨?_, ?_⟩
      · rintro (h1 | h2)
        · obtain ⟨n2, s2, _, hx⟩ := descPaths_shape sec (pre ++ [n]) _ h1
          have h0 : (pre ++ [n]) ++ ([] : List String) =
              (pre ++ [n]) ++ n2 :: s2 := by
            rw [List.append_nil]
            exact hx
          exact List.noConfusion (List.append_cancel_left h0)
        · obtain ⟨n3, s3, hmem3, he3⟩ := descPathsSubs_shape r pre _ h2
          have heq := List.append_cancel_left he3
          exact hnd.1 ((List.cons_eq_cons.mp heq).1 ▸ hmem3)
      · refine List.Nodup.append
          (descPaths_nodup cfg sec (pre ++ [n]) hgs.1.2)
          (descPathsSubs_nodup cfg r pre hnd.2 hgs.2) ?_
        intro x hx1 hx2
        obtain ⟨n2, s2, _, he1⟩ := descPaths_shape sec (pre ++ [n]) x hx1
        obtain ⟨n3, s3, hmem3, he3⟩ := descPathsSubs_shape r pre x hx2
        have he1b : x = pre ++ n :: n2 :: s2 := by rw [he1]; simp
        have heq := List.append_cancel_left (he1b.symm.trans he3)
        exact hnd.1 ((List.cons_eq_cons.mp heq).1 ▸ hmem3)

end

theorem findExact_descPathsSubs : ∀ (su : SubsList) (x : String) (c : Section)
    (pre : List String), su.findExact x = some c →
    (pre ++ [x]) ∈ descPathsSubs pre su ∧
    ∀ y, y ∈ descPaths (pre ++ [x]) c → y ∈ descPathsSubs pre su
  | .nil, x, c, pre, hf => by simp [SubsList.findExact] at hf
  | .cons n sec r, x, c, pre, hf => by
      simp only [SubsList.findExact] at hf
      by_cases hn : n = x
      · rw [if_pos hn] at hf
        cases hf
        subst hn
        constructor
        · simp [descPathsSubs]
        · intro y hy
          simp only [descPathsSubs, List.mem_cons, List.mem_append]
          exact Or.inr (Or.inl hy)
      · rw [if_neg hn] at hf
        obtain ⟨h1, h2⟩ := findExact_descPathsSubs r x c pre hf
        constructor
        · simp only [descPathsSubs, List.mem_cons, List.mem_append]
          exact Or.inr (Or.inr h1)
        · intro y hy
          simp only [descPathsSubs, List.mem_cons, List.mem_append]
          exact Or.inr (Or.inr (h2 y hy))

theorem nodeAt_mem_descPaths : ∀ (q : List String) (t : Section)
    (pre : List String) (n : Section),
    nodeAt t q = some n → q ≠ [] → (pre ++ q) ∈ descPaths pre t
  | [], _, _, _, _, hne => absurd rfl hne
  | x :: xr, .mk o su, pre, n, hf, _ => by
      simp only [nodeAt, Section.subs] at hf
      cases hfe : su.findExact x with
      | none => rw [hfe] at hf; exact Option.noConfusion hf
      | some c =>
          rw [hfe] at hf
          obtain ⟨hhead, hsub⟩ := findExact_descPathsSubs su x c pre hfe
          cases xr with
          | nil => exact hhead
          | cons y yr =>
              have hmem := nodeAt_mem_descPaths (y :: yr) c (pre ++ [x]) n hf
                (by simp)
              have heq : pre ++ x :: y :: yr = (pre ++ [x]) ++ (y :: yr) := by
                simp
              rw [heq]
              exact hsub _ hmem

theorem pyIsSpace_ne (c : Char) (h : pyIsSpace c = true) :
    c ≠ '=' ∧ c ≠ '[' := by
  simp only [pyIsSpace, Bool.or_eq_true, decide_eq_true_eq] at h
  rcases h with (((((h | h) | h) | h) | h) | h) <;> subst h <;>
    exact ⟨by decide, by decide⟩

theorem takeWhile_all {p : Char → Bool} : ∀ (cs : List Char),
    (∀ c ∈ cs, p c = true) → cs.takeWhile p = cs
  | [], _ => rfl
  | c :: cs, h => by
      rw [List.takeWhile_cons, h c (List.mem_cons_self _ _)]
      simp only [if_true]
      rw [takeWhile_all cs (fun x hx => h x (List.mem_cons_of_mem _ hx))]

theorem dropWhile_all {p : Char → Bool} : ∀ (cs : List Char),
    (∀ c ∈ cs, p c = true) → cs.dropWhile p = []
  | [], _ => rfl
  | c :: cs, h => by
      rw [List.dropWhile_cons, h c (List.mem_cons_self _ _)]
      simp only [if_true]
      exact dropWhile_all cs (fun x hx => h x (List.mem_cons_of_mem _ hx))

theorem blank_matchOption (l : String) (hb : lineIsBlank l = true) :
    matchOption l = none := by
  have hall : ∀ c ∈ l.data, pyIsSpace c = true := by
    simpa [lineIsBlank, List.all_eq_true] using hb
  have htake : l.data.takeWhile (fun c => c ≠ '=') = l.data :=
    takeWhile_all l.data (fun c hc => by
      simpa using (pyIsSpace_ne c (hall c hc)).1)
  simp only [matchOption, htake]
  simp

theorem blank_matchSectionRaw (l : String) (hb : lineIsBlank l = true) :
    matchSectionRaw l = none := by
  have hall : ∀ c ∈ l.data, pyIsSpace c = true := by
    simpa [lineIsBlank, List.all_eq_true] using hb
  have hdrop : l.data.dropWhile pyIsSpace = [] := dropWhile_all l.data hall
  simp [matchSectionRaw, hdrop]

theorem comment_matchSectionRaw (l : String) (hc : lineIsComment l = true) :
    matchSectionRaw l = none := by
  simp only [lineIsComment] at hc
  cases hd : l.data.dropWhile pyIsSpace with
  | nil => rw [hd] at hc; exact Bool.noConfusion hc
  | cons c r =>
      rw [hd] at hc
      simp only [Bool.or_eq_true, decide_eq_true_eq] at hc
      simp only [matchSectionRaw]
      rw [hd]
      split
      next rest heq =>
        rcases hc with hc | hc <;> subst hc <;> simp at heq
      next => rfl

theorem odFindFold_head (ic : Bool) (k w : String)
    (r : List (String × String)) :
    odFindFold ic ((k, w) :: r) k = some (k, w) := by
  simp [odFindFold]

theorem odFindFold_none (ic : Bool) : ∀ (opts : List (String × String))
    (fk : String), (∀ kv ∈ opts, foldName ic fk ≠ foldName ic kv.1) →
    odFindFold ic opts fk = none
  | [], _, _ => rfl
  | (n, w) :: r, fk, h => by
      have hne := h (n, w) (List.mem_cons_self _ _)
      simp only [odFindFold, if_neg hne]
      exact odFindFold_none ic r fk
        (fun kv hm => h kv (List.mem_cons_of_mem _ hm))

theorem odDelExact_head (k : String) (w : String)
    (r : List (String × String)) : odDelExact ((k, w) :: r) k = r := by
  simp [odDelExact]

theorem flushOthers_false (st : ExpState) :
    flushOthers st false =
      { st with out := st.out ++ String.join st.others, others := [] } := by
  simp [flushOthers]

theorem flushOthersBefore_false (st : ExpState) :
    flushOthersBeforeSection st false =
      { st with out := st.out ++ String.join st.others, others := [] } := by
  simp [flushOthersBeforeSection]

theorem foldl_id {α β : Type} : ∀ (l : List α) (f : β → α → β) (acc : β),
    (∀ a ∈ l, ∀ b, f b a = b) → l.foldl f acc = acc
  | [], _, _, _ => rfl
  | a :: l, f, acc, h => by
      rw [List.foldl_cons, h a (List.mem_cons_self _ _) acc]
      exact foldl_id l f acc (fun x hx b => h x (List.mem_cons_of_mem _ hx) b)

theorem exportRemainingSections_out (cfg : Cfg) (path : Bool) (root : Section)
    (basePath : List String) (st : ExpState)
    (h : ∀ q ∈ st.remDesc, optsAt root q = none ∨ optsAt root q = some []) :
    exportRemainingSections cfg path root basePath st = st.out := by
  unfold exportRemainingSections
  rw [foldl_id st.remDesc _ _ ?_]
  · intro q hq b
    rcases h q hq with hno | hemp
    · have : nodeAt root q = none := by
        simpa [optsAt] using hno
      simp [this]
    · obtain ⟨n, hn, hopts⟩ : ∃ n, nodeAt root q = some n ∧ n.opts = [] := by
        rcases hx : nodeAt root q with _ | n
        · rw [optsAt, hx] at hemp; exact Option.noConfusion hemp
        · refine ⟨n, rfl, ?_⟩
          rw [optsAt, hx] at hemp
          simpa using hemp
      simp [hn, hopts]

theorem dropLeadingBlanks_leadOK (lines : List String)
    (h : leadOK lines = true) : dropLeadingBlanks lines = lines := by
  cases lines with
  | nil => rfl
  | cons l ls =>
      have hb : lineIsBlank l = false := by simpa [leadOK] using h
      simp [dropLeadingBlanks, List.dropWhile_cons, hb]

theorem contains_of_mem {α : Type} [BEq α] [LawfulBEq α] :
    ∀ {l : List α} {a : α}, a ∈ l → l.contains a = true
  | l, a, h => by
      induction l with
      | nil => simp at h
      | cons b r ih =>
          rcases List.mem_cons.mp h with h1 | h1
          · subst h1
            simp [List.contains_cons]
          · simp only [List.contains_cons, Bool.or_eq_true]
            exact Or.inr (ih h1)

theorem isPrefixOf_self : ∀ (l : List String), l.isPrefixOf l = true
  | [] => rfl
  | a :: l => by simp [List.isPrefixOf, isPrefixOf_self l]

theorem nil_not_mem_headerPaths (cfg : Cfg) : ∀ (ls : List String),
    ([] : List String) ∉ headerPaths cfg ls
  | [] => by simp [headerPaths]
  | l :: ls => by
      cases hcl : classify l with
      | sect m =>
          simp only [headerPaths, hcl, List.mem_cons]
          rintro (h | h)
          · exact parseSubsections_ne_nil cfg m h.symm
          · exact nil_not_mem_headerPaths cfg ls h
      | blank =>
          simp only [headerPaths, hcl]
          exact nil_not_mem_headerPaths cfg ls
      | comment =>
          simp only [headerPaths, hcl]
          exact nil_not_mem_headerPaths cfg ls
      | opt k v =>
          simp only [headerPaths, hcl]
          exact nil_not_mem_headerPaths cfg ls
      | bad =>
          simp only [headerPaths, hcl]
          exact nil_not_mem_headerPaths cfg ls

theorem lastCur_cases (cfg : Cfg) : ∀ (pre cur0 : List String),
    lastCur cfg pre cur0 = cur0 ∨ lastCur cfg pre cur0 ∈ headerPaths cfg pre
  | [], cur0 => Or.inl rfl
  | l :: pre, cur0 => by
      cases hcl : classify l with
      | sect m =>
          simp only [lastCur, headerPaths, hcl]
          rcases lastCur_cases cfg pre (parseSubsections cfg m) with h | h
          · exact Or.inr (by simp [h])
          · exact Or.inr (List.mem_cons_of_mem _ h)
      | blank =>
          simp only [lastCur, headerPaths, hcl]
          exact lastCur_cases cfg pre cur0
      | comment =>
          simp only [lastCur, headerPaths, hcl]
          exact lastCur_cases cfg pre cur0
      | opt k v =>
          simp only [lastCur, headerPaths, hcl]
          exact lastCur_cases cfg pre cur0
      | bad =>
          simp only [lastCur, headerPaths, hcl]
          exact lastCur_cases cfg pre cur0

/-- The option map of the root of the parse result is exactly the first
region's assignments. -/
theorem root_opts_eq (cfg : Cfg) (lines : List String)
    (hreg : regionsOK lines = true) :
    optsAt (parseGo cfg lines emptySection []) [] =
      some (regionAssoc lines) := by
  have h0 : optsAt emptySection [] = some [] := rfl
  have hmain := optsAt_parseGo cfg lines emptySection [] [] []
    (nil_not_mem_headerPaths cfg lines) h0
  rw [if_pos rfl] at hmain
  rw [hmain]
  congr 1
  rw [applyRegion_fresh (regionAssoc lines) [] []
    (keysFresh_regionAssoc lines [] hreg) (by simp)]
  rw [List.nil_append]

/-- The option map of the node named by a header is exactly the
assignments of the region following that header. -/
theorem header_node_opts (cfg : Cfg) (lines : List String)
    (hnodup : (headerPaths cfg lines).Nodup) (hreg : regionsOK lines = true)
    (pre : List String) (h : String) (ls : List String) (m : String)
    (hdec : lines = pre ++ h :: ls) (hcl : classify h = .sect m) :
    optsAt (parseGo cfg lines emptySection []) (parseSubsections cfg m) =
      some (regionAssoc ls) := by
  subst hdec
  have hps : headerPaths cfg (pre ++ h :: ls) =
      headerPaths cfg pre ++ parseSubsections cfg m :: headerPaths cfg ls := by
    rw [headerPaths_append]
    congr 1
    simp [headerPaths, hcl]
  rw [hps] at hnodup
  obtain ⟨hnd1, hnd2, hdisj⟩ := List.nodup_append.mp hnodup
  have hnot_pre : parseSubsections cfg m ∉ headerPaths cfg pre := by
    intro hmem
    exact hdisj hmem (List.mem_cons_self _ _)
  have hnot_ls : parseSubsections cfg m ∉ headerPaths cfg ls :=
    (List.nodup_cons.mp hnd2).1
  rw [parseGo_append cfg pre (h :: ls) emptySection []]
  have hstep : parseGo cfg (h :: ls) (parseGo cfg pre emptySection [])
      (lastCur cfg pre []) =
      parseGo cfg ls
        (parseDescend (parseGo cfg pre emptySection [])
          (parseSubsections cfg m))
        (parseSubsections cfg m) := by
    simp [parseGo, hcl]
  rw [hstep]
  have hempty_small : optsAt emptySection (parseSubsections cfg m) = none := by
    cases hnm : parseSubsections cfg m with
    | nil => exact absurd hnm (parseSubsections_ne_nil cfg m)
    | cons x xr => rfl
  have hsmall := optsAt_parseGo_small cfg pre emptySection []
    (parseSubsections cfg m) (Or.inl hempty_small) hnot_pre
    (parseSubsections_ne_nil cfg m)
  have hd := optsAt_parseDescend (parseSubsections cfg m)
    (parseGo cfg pre emptySection []) (parseSubsections cfg m)
  have ho0 : optsAt (parseDescend (parseGo cfg pre emptySection [])
      (parseSubsections cfg m)) (parseSubsections cfg m) = some [] := by
    rcases hsmall with hno | hemp
    · rw [hno] at hd
      rw [hd, isPrefixOf_self, if_pos rfl]
    · rw [hemp] at hd
      rw [hd]
  have hfin := optsAt_parseGo cfg ls _ (parseSubsections cfg m)
    (parseSubsections cfg m) [] hnot_ls ho0
  rw [if_pos rfl] at hfin
  rw [hfin]
  congr 1
  rw [applyRegion_fresh (regionAssoc ls) [] []
    (keysFresh_regionAssoc ls []
      (regionsOKAux_decomp pre [] h ls m hreg hcl)) (by simp)]
  rw [List.nil_append]

theorem headerPaths_mem_decomp (cfg : Cfg) : ∀ (ls : List String)
    (p : List String), p ∈ headerPaths cfg ls →
    ∃ pre h rest m, ls = pre ++ h :: rest ∧ classify h = .sect m ∧
      p = parseSubsections cfg m
  | [], p, hm => by simp [headerPaths] at hm
  | l :: ls, p, hm => by
      cases hcl : classify l with
      | sect m =>
          rw [show headerPaths cfg (l :: ls) =
            parseSubsections cfg m :: headerPaths cfg ls from by
              simp [headerPaths, hcl]] at hm
          rcases List.mem_cons.mp hm with h1 | h1
          · exact ⟨[], l, ls, m, rfl, hcl, h1⟩
          · obtain ⟨pre2, h2, rest2, m2, hd2, hc2, hp2⟩ :=
              headerPaths_mem_decomp cfg ls p h1
            exact ⟨l :: pre2, h2, rest2, m2, by rw [hd2]; rfl, hc2, hp2⟩
      | blank =>
          rw [show headerPaths cfg (l :: ls) = headerPaths cfg ls from by
            simp [headerPaths, hcl]] at hm
          obtain ⟨pre2, h2, rest2, m2, hd2, hc2, hp2⟩ :=
            headerPaths_mem_decomp cfg ls p hm
          exact ⟨l :: pre2, h2, rest2, m2, by rw [hd2]; rfl, hc2, hp2⟩
      | comment =>
          rw [show headerPaths cfg (l :: ls) = headerPaths cfg ls from by
            simp [headerPaths, hcl]] at hm
          obtain ⟨pre2, h2, rest2, m2, hd2, hc2, hp2⟩ :=
            headerPaths_mem_decomp cfg ls p hm
          exact ⟨l :: pre2, h2, rest2, m2, by rw [hd2]; rfl, hc2, hp2⟩
      | opt k v =>
          rw [show headerPaths cfg (l :: ls) = headerPaths cfg ls from by
            simp [headerPaths, hcl]] at hm
          obtain ⟨pre2, h2, rest2, m2, hd2, hc2, hp2⟩ :=
            headerPaths_mem_decomp cfg ls p hm
          exact ⟨l :: pre2, h2, rest2, m2, by rw [hd2]; rfl, hc2, hp2⟩
      | bad =>
          rw [show headerPaths cfg (l :: ls) = headerPaths cfg ls from by
            simp [headerPaths, hcl]] at hm
          obtain ⟨pre2, h2, rest2, m2, hd2, hc2, hp2⟩ :=
            headerPaths_mem_decomp cfg ls p hm
          exact ⟨l :: pre2, h2, rest2, m2, by rw [hd2]; rfl, hc2, hp2⟩

/-! ### Claim C1: the export scan, one line at a time -/

theorem exportStep_opt (cfg : Cfg) (T : Section) (st : ExpState)
    (l k v : String) (tail : List (String × String))
    (hro : st.readonly = false) (hcl : classify l = .opt k v)
    (hrem : st.remOpts = (k, v) :: tail) :
    exportStep cfg ⟨true, true, false⟩ true T [] st l =
      .ok { st with out := st.out ++ String.join st.others ++ l,
                    others := [], remOpts := tail } := by
  obtain ⟨hb, hc, hmo⟩ := classify_opt l k v hcl
  simp only [exportStep, hmo]
  rw [flushOthers_false]
  simp [exportExistingOption, hro, hrem, odFindFold_head, odDelExact_head,
    string_append_assoc]

theorem exportStep_commentEq (cfg : Cfg) (T : Section) (st : ExpState)
    (l fk fv : String)
    (hro : st.readonly = false) (hmo : matchOption l = some (fk, fv))
    (hnone : odFindFold cfg.ignore_case st.remOpts fk = none) :
    exportStep cfg ⟨true, true, false⟩ true T [] st l =
      .ok { st with out := st.out ++ String.join st.others ++ l,
                    others := [] } := by
  simp only [exportStep, hmo]
  rw [flushOthers_false]
  simp [exportExistingOption, hro, hnone, string_append_assoc]

theorem exportStep_buffer (cfg : Cfg) (pol : Policy) (path : Bool)
    (T : Section) (bp : List String) (st : ExpState) (l : String)
    (hmo : matchOption l = none) (hms : matchSectionRaw l = none) :
    exportStep cfg pol path T bp st l =
      .ok { st with others := st.others ++ [l] } := by
  simp [exportStep, hmo, hms]

theorem exportStep_sect (cfg : Cfg) (T : Section) (st : ExpState)
    (l m : String) (node : Section)
    (hro : st.readonly = false) (hcl : classify l = .sect m)
    (hrem : st.remOpts = [])
    (hnode : nodeAt T (parseSubsections cfg m) = some node)
    (hg : goodTree cfg T = true)
    (hmem : parseSubsections cfg m ∈ st.remDesc) :
    exportStep cfg ⟨true, true, false⟩ true T [] st l =
      .ok { st with
              out := st.out ++ String.join st.others ++ l,
              others := [],
              readonly := false,
              remOpts := getOptionsCopy node,
              remDesc := st.remDesc.erase (parseSubsections cfg m) } := by
  obtain ⟨hb, hc, hmo, hms⟩ := classify_sect l m hcl
  simp only [exportStep, hmo, hms]
  unfold exportExistingSection
  have h1 : writeRemainingOptions st = { st with out := st.out ++ "" } := by
    simp [writeRemainingOptions, hro, hrem, String.join]
  simp only [show (⟨true, true, false⟩ : Policy).add = true from rfl, if_true,
    h1]
  rw [flushOthersBefore_false]
  have hres := resolveNames_exact cfg T hg (parseSubsections cfg m) [] node
    (by simpa using hnode)
  simp only [show (⟨true, true, false⟩ : Policy).reset = false from rfl]
  simp only [if_true, hres, List.nil_append]
  rw [show ([] : List String).isPrefixOf (parseSubsections cfg m) = true
    from by simp [List.isPrefixOf]]
  rw [contains_of_mem hmem]
  simp [hnode, string_append_empty, string_append_assoc]

theorem string_join_nil : String.join [] = "" := rfl

theorem exportLoop_sim (cfg : Cfg) (T : Section) (hg : goodTree cfg T = true) :
    ∀ (rest : List String) (st : ExpState) (ks : List String),
    st.readonly = false →
    st.remOpts = regionAssoc rest →
    st.remDesc.Nodup →
    (∀ q, q ∈ headerPaths cfg rest → q ∈ st.remDesc) →
    (∀ q ∈ st.remDesc, q ∉ headerPaths cfg rest →
        optsAt T q = none ∨ optsAt T q = some []) →
    (∀ pre2 h2 ls2 m2, rest = pre2 ++ h2 :: ls2 → classify h2 = .sect m2 →
        optsAt T (parseSubsections cfg m2) = some (regionAssoc ls2)) →
    (headerPaths cfg rest).Nodup →
    regionsOKAux ks rest = true →
    noCommentCollide cfg.ignore_case rest = true →
    ∃ stF, exportLoop cfg ⟨true, true, false⟩ true T [] rest st = .ok stF ∧
      stF.readonly = false ∧ stF.remOpts = [] ∧
      (∀ q ∈ stF.remDesc, optsAt T q = none ∨ optsAt T q = some []) ∧
      stF.out ++ String.join stF.others =
        st.out ++ String.join st.others ++ String.join rest
  | [], st, ks, h1, h2, h3, h4, h5, h6, h7, h8, h9 =>
      ⟨st, rfl, h1, by simpa [regionAssoc] using h2,
        fun q hq => h5 q hq (by simp [headerPaths]),
        by rw [string_join_nil, string_append_empty]⟩
  | l :: ls, st, ks, h1, h2, h3, h4, h5, h6, h7, h8, h9 => by
      cases hcl : classify l with
      | opt k v =>
          have hps : headerPaths cfg (l :: ls) = headerPaths cfg ls := by
            simp [headerPaths, hcl]
          have hrem : st.remOpts = (k, v) :: regionAssoc ls := by
            rw [h2]
            simp [regionAssoc, hcl]
          have hstep := exportStep_opt cfg T st l k v (regionAssoc ls) h1 hcl
            hrem
          have h8' : regionsOKAux (k :: ks) ls = true := by
            have hx := h8
            simp only [regionsOKAux, hcl, Bool.and_eq_true] at hx
            exact hx.2
          have h9' : noCommentCollide cfg.ignore_case ls = true := by
            have hx := h9
            simp only [noCommentCollide, hcl, Bool.true_and] at hx
            exact hx
          obtain ⟨stF, hloop, hf1, hf2, hf3, hf4⟩ := exportLoop_sim cfg T hg
            ls
            ({ st with
                out := st.out ++ String.join st.others ++ l
                others := []
                remOpts := regionAssoc ls })
            (k :: ks) h1 rfl h3
            (fun q hq => h4 q (by rw [hps]; exact hq))
            (fun q hq hnq => h5 q hq (by rw [hps]; exact hnq))
            (fun pre2 hl2 ls2 m2 hdec hc2 =>
              h6 (l :: pre2) hl2 ls2 m2 (by rw [hdec]; rfl) hc2)
            (by rw [← hps]; exact h7) h8' h9'
          refine ⟨stF, ?_, hf1, hf2, hf3, ?_⟩
          · simp only [exportLoop]
            rw [hstep]
            exact hloop
          · rw [hf4]
            simp [string_join_cons, string_join_nil, string_append_assoc,
              string_append_empty]
      | sect m =>
          have hps : headerPaths cfg (l :: ls) =
              parseSubsections cfg m :: headerPaths cfg ls := by
            simp [headerPaths, hcl]
          have hrem : st.remOpts = [] := by
            rw [h2]
            simp [regionAssoc, hcl]
          have hnode0 := h6 [] l ls m rfl hcl
          obtain ⟨node, hnode, hnodeopts⟩ := Option.map_eq_some'.mp hnode0
          have hmem : parseSubsections cfg m ∈ st.remDesc :=
            h4 _ (by rw [hps]; exact List.mem_cons_self _ _)
          have hstep := exportStep_sect cfg T st l m node h1 hcl hrem hnode hg
            hmem
          have hnods : (parseSubsections cfg m :: headerPaths cfg ls).Nodup := by
            rw [← hps]; exact h7
          have hnotls : parseSubsections cfg m ∉ headerPaths cfg ls :=
            (List.nodup_cons.mp hnods).1
          have h8' : regionsOKAux ([] : List String) ls = true := by
            have hx := h8
            simp only [regionsOKAux, hcl] at hx
            exact hx
          have h9' : noCommentCollide cfg.ignore_case ls = true := by
            have hx := h9
            simp only [noCommentCollide, hcl, Bool.true_and] at hx
            exact hx
          have hcopy : getOptionsCopy node = regionAssoc ls := by
            unfold getOptionsCopy
            rw [hnodeopts]
            exact dedupAux_fresh (regionAssoc ls) []
              (keysFresh_regionAssoc ls [] h8')
          obtain ⟨stF, hloop, hf1, hf2, hf3, hf4⟩ := exportLoop_sim cfg T hg
            ls
            ({ st with
                out := st.out ++ String.join st.others ++ l
                others := []
                readonly := false
                remOpts := getOptionsCopy node
                remDesc := st.remDesc.erase (parseSubsections cfg m) })
            [] rfl (by simpa using hcopy) (h3.erase _)
            (fun q hq =>
              (List.mem_erase_of_ne
                  (fun he => hnotls (by rw [← he]; exact hq))).mpr
                (h4 q (by rw [hps]; exact List.mem_cons_of_mem _ hq)))
            (fun q hq hnq => by
              have hqq := (List.Nodup.mem_erase_iff h3).mp hq
              exact h5 q hqq.2 (by
                rw [hps]
                intro hmem2
                rcases List.mem_cons.mp hmem2 with he | he
                · exact hqq.1 he
                · exact hnq he))
            (fun pre2 hl2 ls2 m2 hdec hc2 =>
              h6 (l :: pre2) hl2 ls2 m2 (by rw [hdec]; rfl) hc2)
            (List.nodup_cons.mp hnods).2 h8' h9'
          refine ⟨stF, ?_, hf1, hf2, hf3, ?_⟩
          · simp only [exportLoop]
            rw [hstep]
            exact hloop
          · rw [hf4]
            simp [string_join_cons, string_join_nil, string_append_assoc,
              string_append_empty]
      | comment =>
          have hps : headerPaths cfg (l :: ls) = headerPaths cfg ls := by
            simp [headerPaths, hcl]
          have hra : regionAssoc (l :: ls) = regionAssoc ls := by
            simp [regionAssoc, hcl]
          have h8' : regionsOKAux ks ls = true := by
            have hx := h8
            simp only [regionsOKAux, hcl] at hx
            exact hx
          have h9' : noCommentCollide cfg.ignore_case ls = true := by
            have hx := h9
            simp only [noCommentCollide, hcl, Bool.and_eq_true] at hx
            exact hx.2
          cases hmo : matchOption l with
          | some kv =>
              obtain ⟨fk, fv⟩ := kv
              have hcollide : ∀ kv2 ∈ regionAssoc ls,
                  foldName cfg.ignore_case fk ≠
                    foldName cfg.ignore_case kv2.1 := by
                have hx := h9
                simp only [noCommentCollide, hcl, hmo,
                  Bool.and_eq_true, List.all_eq_true] at hx
                intro kv2 hm2
                have := hx.1 kv2 hm2
                simpa using this
              have hnone : odFindFold cfg.ignore_case st.remOpts fk = none := by
                rw [h2, hra]
                exact odFindFold_none cfg.ignore_case (regionAssoc ls) fk
                  hcollide
              have hstep := exportStep_commentEq cfg T st l fk fv h1 hmo hnone
              obtain ⟨stF, hloop, hf1, hf2, hf3, hf4⟩ := exportLoop_sim cfg T
                hg ls
                ({ st with
                    out := st.out ++ String.join st.others ++ l
                    others := [] })
                ks h1 (show st.remOpts = regionAssoc ls by rw [h2, hra]) h3
                (fun q hq => h4 q (by rw [hps]; exact hq))
                (fun q hq hnq => h5 q hq (by rw [hps]; exact hnq))
                (fun pre2 hl2 ls2 m2 hdec hc2 =>
                  h6 (l :: pre2) hl2 ls2 m2 (by rw [hdec]; rfl) hc2)
                (by rw [← hps]; exact h7) h8' h9'
              refine ⟨stF, ?_, hf1, hf2, hf3, ?_⟩
              · simp only [exportLoop]
                rw [hstep]
                exact hloop
              · rw [hf4]
                simp [string_join_cons, string_join_nil, string_append_assoc,
                  string_append_empty]
          | none =>
              have hms := comment_matchSectionRaw l (classify_comment l hcl).2
              have hstep := exportStep_buffer cfg ⟨true, true, false⟩ true T []
                st l hmo hms
              obtain ⟨stF, hloop, hf1, hf2, hf3, hf4⟩ := exportLoop_sim cfg T
                hg ls { st with others := st.others ++ [l] }
                ks h1 (show st.remOpts = regionAssoc ls by rw [h2, hra]) h3
                (fun q hq => h4 q (by rw [hps]; exact hq))
                (fun q hq hnq => h5 q hq (by rw [hps]; exact hnq))
                (fun pre2 hl2 ls2 m2 hdec hc2 =>
                  h6 (l :: pre2) hl2 ls2 m2 (by rw [hdec]; rfl) hc2)
                (by rw [← hps]; exact h7) h8' h9'
              refine ⟨stF, ?_, hf1, hf2, hf3, ?_⟩
              · simp only [exportLoop]
                rw [hstep]
                exact hloop
              · rw [hf4]
                simp [string_join_cons, string_join_nil, string_join_append,
                  string_append_assoc, string_append_empty]
      | blank =>
          have hps : headerPaths cfg (l :: ls) = headerPaths cfg ls := by
            simp [headerPaths, hcl]
          have hra : regionAssoc (l :: ls) = regionAssoc ls := by
            simp [regionAssoc, hcl]
          have h8' : regionsOKAux ks ls = true := by
            have hx := h8
            simp only [regionsOKAux, hcl] at hx
            exact hx
          have h9' : noCommentCollide cfg.ignore_case ls = true := by
            have hx := h9
            simp only [noCommentCollide, hcl, Bool.true_and] at hx
            exact hx
          have hb := classify_blank l hcl
          have hstep := exportStep_buffer cfg ⟨true, true, false⟩ true T []
            st l (blank_matchOption l hb) (blank_matchSectionRaw l hb)
          obtain ⟨stF, hloop, hf1, hf2, hf3, hf4⟩ := exportLoop_sim cfg T hg
            ls { st with others := st.others ++ [l] }
            ks h1 (show st.remOpts = regionAssoc ls by rw [h2, hra]) h3
            (fun q hq => h4 q (by rw [hps]; exact hq))
            (fun q hq hnq => h5 q hq (by rw [hps]; exact hnq))
            (fun pre2 hl2 ls2 m2 hdec hc2 =>
              h6 (l :: pre2) hl2 ls2 m2 (by rw [hdec]; rfl) hc2)
            (by rw [← hps]; exact h7) h8' h9'
          refine ⟨stF, ?_, hf1, hf2, hf3, ?_⟩
          · simp only [exportLoop]
            rw [hstep]
            exact hloop
          · rw [hf4]
            simp [string_join_cons, string_join_nil, string_join_append,
              string_append_assoc, string_append_empty]
      | bad =>
          have hps : headerPaths cfg (l :: ls) = headerPaths cfg ls := by
            simp [headerPaths, hcl]
          have hra : regionAssoc (l :: ls) = regionAssoc ls := by
            simp [regionAssoc, hcl]
          have h8' : regionsOKAux ks ls = true := by
            have hx := h8
            simp only [regionsOKAux, hcl] at hx
            exact hx
          have h9' : noCommentCollide cfg.ignore_case ls = true := by
            have hx := h9
            simp only [noCommentCollide, hcl, Bool.true_and] at hx
            exact hx
          obtain ⟨hb, hc, hmo, hms⟩ := classify_bad l hcl
          have hstep := exportStep_buffer cfg ⟨true, true, false⟩ true T []
            st l hmo hms
          obtain ⟨stF, hloop, hf1, hf2, hf3, hf4⟩ := exportLoop_sim cfg T hg
            ls { st with others := st.others ++ [l] }
            ks h1 (show st.remOpts = regionAssoc ls by rw [h2, hra]) h3
            (fun q hq => h4 q (by rw [hps]; exact hq))
            (fun q hq hnq => h5 q hq (by rw [hps]; exact hnq))
            (fun pre2 hl2 ls2 m2 hdec hc2 =>
              h6 (l :: pre2) hl2 ls2 m2 (by rw [hdec]; rfl) hc2)
            (by rw [← hps]; exact h7) h8' h9'
          refine ⟨stF, ?_, hf1, hf2, hf3, ?_⟩
          · simp only [exportLoop]
            rw [hstep]
            exact hloop
          · rw [hf4]
            simp [string_join_cons, string_join_nil, string_join_append,
              string_append_assoc, string_append_empty]

theorem exportFinish_out (cfg : Cfg) (T : Section) (bp : List String)
    (st : ExpState) (h1 : st.readonly = false) (h2 : st.remOpts = [])
    (h3 : ∀ q ∈ st.remDesc, optsAt T q = none ∨ optsAt T q = some []) :
    exportFinish cfg ⟨true, true, false⟩ true T bp st =
      st.out ++ String.join st.others := by
  unfold exportFinish
  have hw : writeRemainingOptions st = { st with out := st.out ++ "" } := by
    simp [writeRemainingOptions, h1, h2, String.join]
  simp only [show (⟨true, true, false⟩ : Policy).add = true from rfl, if_true,
    hw]
  have hstep : flushOthers { st with out := st.out ++ "" } false =
      ({ st with
          out := (st.out ++ "") ++ String.join st.others
          others := [] }) := by
    rw [flushOthers_false]
  rw [hstep]
  rw [exportRemainingSections_out cfg true T bp
    ({ st with
        out := (st.out ++ "") ++ String.join st.others
        others := [] }) (fun q hq => h3 q hq)]
  show (st.out ++ "") ++ String.join st.others = st.out ++ String.join st.others
  rw [string_append_empty]

/-- Claim C1 (amended): the round trip is byte-identical for every
well-formed file, where well-formed means: the file parses (no invalid
line), the parsed tree is valid and case-duplicate-free
(`goodTree`), the file does not begin with a whitespace-only line, no
two section headers name the same section path, the option keys of each
region are pairwise distinct, and no comment line reads as an assignment
to a key that case-matches a live option of its region.  The original
claim fails without the last four conditions: a leading blank line is
discarded by `_export_file`, and a duplicated option key makes the
exporter rewrite the first occurrence with the last stored value. -/
theorem c1_roundtrip_amended (cfg : Cfg) (lines : List String) (t : Section)
    (hparse : parseFile cfg lines = .ok t)
    (hwf : wfRoundTrip cfg lines t) :
    roundTrip cfg lines = .ok (String.join lines) := by
  obtain ⟨hg, hlead, hnodup, hreg, hncc⟩ := hwf
  have hT := parseLinesAux_ok_eq cfg lines emptySection [] t hparse
  unfold roundTrip
  rw [hparse]
  show (match importObject cfg ⟨true, true, false⟩ t emptySection with
        | .error e => Except.error e
        | .ok t2 => exportFile cfg ⟨true, true, false⟩ true t2 [] lines) =
      .ok (String.join lines)
  rw [importObject_into_empty cfg true t hg]
  show exportFile cfg ⟨true, true, false⟩ true t [] lines =
    .ok (String.join lines)
  unfold exportFile
  rw [dropLeadingBlanks_leadOK lines hlead]
  have hinit : exportInit true t [] =
      { out := "", readonly := false, remOpts := getOptionsCopy t,
        remDesc := descPaths [] t, others := [] } := by
    simp [exportInit]
  rw [hinit]
  have hro : t.opts = regionAssoc lines := by
    have h0 := root_opts_eq cfg lines hreg
    rw [← hT] at h0
    have hx : optsAt t [] = some t.opts := by cases t; rfl
    rw [hx] at h0
    exact Option.some.inj h0
  have hcopy : getOptionsCopy t = regionAssoc lines := by
    unfold getOptionsCopy
    rw [hro]
    exact dedupAux_fresh (regionAssoc lines) []
      (keysFresh_regionAssoc lines [] hreg)
  obtain ⟨stF, hloop, hf1, hf2, hf3, hf4⟩ := exportLoop_sim cfg t hg lines
    { out := "", readonly := false, remOpts := getOptionsCopy t,
      remDesc := descPaths [] t, others := [] }
    [] rfl (by simpa using hcopy) (descPaths_nodup cfg t [] hg)
    (fun q hq => by
      obtain ⟨pre2, h2, rest2, m2, hdec, hc2, hp2⟩ :=
        headerPaths_mem_decomp cfg lines q hq
      have hn0 := header_node_opts cfg lines hnodup hreg pre2 h2 rest2 m2
        hdec hc2
      rw [← hT] at hn0
      obtain ⟨node, hnode, _⟩ := Option.map_eq_some'.mp hn0
      have hmem := nodeAt_mem_descPaths (parseSubsections cfg m2) t [] node
        hnode (parseSubsections_ne_nil cfg m2)
      rw [hp2]
      simpa using hmem)
    (fun q hq hnq => by
      obtain ⟨n2, s2, _, hx⟩ := descPaths_shape t [] q hq
      have hqne : q ≠ [] := by rw [hx]; simp
      have hsm : optsAt emptySection q = none := by
        rw [hx]
        simp [optsAt, nodeAt, emptySection, Section.subs, SubsList.findExact]
      have hz := optsAt_parseGo_small cfg lines emptySection [] q
        (Or.inl hsm) hnq hqne
      rw [← hT] at hz
      exact hz)
    (fun pre2 h2 ls2 m2 hdec hc2 => by
      have hz := header_node_opts cfg lines hnodup hreg pre2 h2 ls2 m2 hdec
        hc2
      rw [← hT] at hz
      exact hz)
    hnodup hreg hncc
  rw [hloop]
  show Except.ok (exportFinish cfg ⟨true, true, false⟩ true t [] stF) =
    .ok (String.join lines)
  congr 1
  rw [exportFinish_out cfg t [] stF hf1 hf2 hf3, hf4]
  rw [string_join_nil, string_append_empty, string_empty_append]

/-- Counterexample to claim C1 as stated: a leading blank line is
discarded by the export, and a file that assigns the same key twice is
rewritten (the first line gets the last value), so the rewritten content
is not byte-identical for these well-formed parseable files. -/
theorem c1_counterexample :
    roundTrip ⟨false, false, true, true⟩ ["\n", "a = 1\n"] = .ok "a = 1\n" ∧
    "a = 1\n" ≠ String.join ["\n", "a = 1\n"] ∧
    roundTrip ⟨false, false, true, true⟩ ["a = 1\n", "a = 2\n"] =
      .ok "a = 2\na = 2\n" ∧
    "a = 2\na = 2\n" ≠ String.join ["a = 1\n", "a = 2\n"] :=
  ⟨rfl, by decide, rfl, by decide⟩

/-- Witness for C1: a file with comments, blank lines, options, a
section and a nested subsection round-trips byte-identically. -/
theorem c1_witness :
    roundTrip ⟨false, false, true, true⟩
      ["# hey\n", "a = 1\n", "\n", "[S]\n", "b = 2\n", "; x\n", "\n",
        "[S.T]\n", "c = 3 = 4\n"] =
      .ok (String.join
        ["# hey\n", "a = 1\n", "\n", "[S]\n", "b = 2\n", "; x\n", "\n",
          "[S.T]\n", "c = 3 = 4\n"]) :=
  c1_roundtrip_amended ⟨false, false, true, true⟩
    ["# hey\n", "a = 1\n", "\n", "[S]\n", "b = 2\n", "; x\n", "\n",
      "[S.T]\n", "c = 3 = 4\n"]
    (parseGo ⟨false, false, true, true⟩
      ["# hey\n", "a = 1\n", "\n", "[S]\n", "b = 2\n", "; x\n", "\n",
        "[S.T]\n", "c = 3 = 4\n"] emptySection [])
    (by rfl)
    ⟨by decide, by decide, by decide, by decide, by decide⟩

/-- Witness for C9: with `ignore_case=true` and a child stored as `A`,
the root-path `${a$:x$}` still fails with `KeyError` on `a` — no
case-insensitive fallback in the interpolation descent. -/
theorem c9_witness :
    interpolateValue ⟨false, false, true, true⟩
      (.mk [] (.cons "A" (.mk [("x", "1")] .nil) .nil))
      (.mk [] (.cons "A" (.mk [("x", "1")] .nil) .nil)) []
      (pathText ["a", "x"]) = .error (.keyError "a") :=
  c9_exact_descent ⟨false, false, true, true⟩
    (.mk [] (.cons "A" (.mk [("x", "1")] .nil) .nil))
    (.mk [] (.cons "A" (.mk [("x", "1")] .nil) .nil)) []
    "a" "x" [] (by decide) (by decide) (by decide) (by decide) (by simp)

end Configfile
